import Mathlib

/-!
Shallow embedding of `torchreid/data/sampler.py`.

The source builds index-ordering strategies over a list of items, each item a
tuple whose fields 1, 2, 3 are the identity label (`pid`), the camera label
(`camid`) and the dataset label (`dsetid`).  Randomness in the source comes
from `random.sample`, `random.shuffle`, `np.random.choice` and
`torch.randperm`; here every random draw is an explicit input (a trace of
selections, a padded-and-shuffled array per identity, or a seeded-permutation
oracle) constrained exactly by the guarantees those library calls give
(samples without replacement are duplicate-free subsets of the population of
the requested size; a shuffle is a permutation; `torch.randperm n` seeded by
an epoch is a permutation of `range n` depending only on the seed).
Iterations that mutate dictionaries are explicit recursions over association
lists; Python exceptions (`ValueError`, `AssertionError`, `ZeroDivisionError`,
`NameError`) are `Except` errors.  Python integer division and modulus on the
non-negative values used here agree with `Nat` division and modulus, except
that division and modulus by zero raise, which the constructors model with an
explicit check.
-/

/-- One entry of `data_source`: the sampler reads fields 1, 2, 3 of each tuple
(`pid`, `camid`, `dsetid`); all other fields are never inspected. -/
structure Item where
  pid : Nat
  camid : Nat
  dsetid : Nat
deriving DecidableEq

instance : Inhabited Item := ⟨⟨0, 0, 0⟩⟩

/-- Indices `i` of `data_source` whose item has label `lab` under selector `f`,
in increasing order: the result of the `for i, items in enumerate(...)` scans
that build `index_dic`, `domain_dict` and `dataset_dict`. -/
def labelIndices (ds : List Item) (f : Item → Nat) (lab : Nat) : List Nat :=
  (List.range ds.length).filter (fun i => f (ds.getD i default) == lab)

/-- `RandomIdentitySampler.index_dic[pid]`. -/
def index_dic (ds : List Item) (p : Nat) : List Nat :=
  labelIndices ds Item.pid p

/-- `RandomDomainSampler.domain_dict[camid]`. -/
def domain_dict (ds : List Item) (c : Nat) : List Nat :=
  labelIndices ds Item.camid c

/-- `RandomDatasetSampler.dataset_dict[dsetid]`. -/
def dataset_dict (ds : List Item) (d : Nat) : List Nat :=
  labelIndices ds Item.dsetid d

/-- Keys of a Python dict built by repeated insertion, in first-occurrence
order (`list(self.index_dic.keys())` etc.). -/
def firstOccs (ls : List Nat) : List Nat :=
  ls.foldl (fun acc x => if x ∈ acc then acc else acc ++ [x]) []

/-- `RandomIdentitySampler.pids`. -/
def pidsOf (ds : List Item) : List Nat := firstOccs (ds.map Item.pid)

/-- `RandomDomainSampler.domains`. -/
def domainsOf (ds : List Item) : List Nat := firstOccs (ds.map Item.camid)

/-- `RandomDatasetSampler.datasets`. -/
def datasetsOf (ds : List Item) : List Nat := firstOccs (ds.map Item.dsetid)

/-- Python error values raised by the module (messages elided). -/
inductive PyError where
  | valueError
  | assertionError
  | zeroDivisionError
  | iterationFailure
  | nameErr (n : Nat)
deriving DecidableEq

deriving instance DecidableEq for Except

/-- True exactly on `Except.ok`: construction succeeded. -/
def isOkE {α : Type} (e : Except PyError α) : Bool :=
  match e with
  | Except.ok _ => true
  | Except.error _ => false

/-- A possible result of `random.sample(popu, n)`: `n` pairwise-distinct
elements drawn from `popu`. -/
def sampleOK (sel popu : List Nat) (n : Nat) : Prop :=
  sel.length = n ∧ sel.Nodup ∧ ∀ x ∈ sel, x ∈ popu

instance (sel popu : List Nat) (n : Nat) : Decidable (sampleOK sel popu n) :=
  inferInstanceAs (Decidable (sel.length = n ∧ sel.Nodup ∧ ∀ x ∈ sel, x ∈ popu))

/-- The chunking loop of `RandomIdentitySampler.__iter__` (lines 62-67):
accumulate `cur`, flush it whenever it reaches size `k`, drop the trailing
partial chunk. -/
def chunkLoop (k : Nat) : List Nat → List Nat → List (List Nat) → List (List Nat)
  | [], _, acc => acc
  | x :: xs, cur, acc =>
    if (cur ++ [x]).length = k then chunkLoop k xs [] (acc ++ [cur ++ [x]])
    else chunkLoop k xs (cur ++ [x]) acc

/-- `batch_idxs_dict[pid]`: the shuffled (and possibly padded) index list of
one identity cut into chunks of exactly `k`, trailing partial chunk dropped. -/
def mkChunks (k : Nat) (xs : List Nat) : List (List Nat) := chunkLoop k xs [] []

/-- State of the `while len(avai_pids) >= self.num_pids_per_batch` loop.
`out` keeps each emitted chunk tagged with the identity it was popped from;
the flat `final_idxs` of the source is `identityFinal`. -/
structure RState where
  dict : List (Nat × List (List Nat))
  avai : List Nat
  out : List (Nat × List Nat)
deriving DecidableEq

/-- `final_idxs`: the flat sequence the pass returns. -/
def identityFinal (st : RState) : List Nat := (st.out.map Prod.snd).flatten

/-- First-match lookup in an association list of chunk queues; a missing key
reads as the empty queue (`defaultdict(list)`). -/
def lookupChunks : List (Nat × List (List Nat)) → Nat → List (List Nat)
  | [], _ => []
  | (q, cs) :: d, p => if q = p then cs else lookupChunks d p

/-- `batch_idxs_dict[pid].pop(0)`: pop the oldest chunk of `p`, returning the
chunk, the remaining queue of `p` and the updated dict, or `none` when the
queue is empty (Python raises `IndexError`). -/
def dictPop : List (Nat × List (List Nat)) → Nat →
    Option (List Nat × List (List Nat) × List (Nat × List (List Nat)))
  | [], _ => none
  | (q, cs) :: d, p =>
    if q = p then
      match cs with
      | [] => none
      | c :: rest => some (c, rest, (q, rest) :: d)
    else
      match dictPop d p with
      | none => none
      | some (c, rest, d') => some (c, rest, (q, cs) :: d')

/-- Total number of chunks stored in the dict. -/
def totalChunks (d : List (Nat × List (List Nat))) : Nat :=
  (d.map (fun e => e.2.length)).sum

/-- Body of one round of the while loop (lines 74-78): for each selected pid,
pop its oldest chunk, emit it, and drop the pid from `avai` when its queue
empties. -/
def processRound : List Nat → RState → Option RState
  | [], st => some st
  | p :: ps, st =>
    match dictPop st.dict p with
    | none => none
    | some (c, rest, d') =>
      processRound ps
        ⟨d', if rest.isEmpty then st.avai.erase p else st.avai, st.out ++ [(p, c)]⟩

/-- The while loop (lines 72-78).  Each element of `sels` is the value one
`random.sample(avai_pids, num_pids_per_batch)` call returned; a selection that
`random.sample` could not have produced, or an exhausted trace while the loop
still wants to run, yields `none`. -/
def runLoop (nppb : Nat) : List (List Nat) → RState → Option RState
  | [], st => if st.avai.length < nppb then some st else none
  | sel :: rest, st =>
    if st.avai.length < nppb then some st
    else if sampleOK sel st.avai nppb then
      match processRound sel st with
      | none => none
      | some st' => runLoop nppb rest st'
    else none

/-- `batch_idxs_dict` after the per-identity chunking pass, where `arr p` is
the shuffled (padded) index array of identity `p`. -/
def initDict (ds : List Item) (k : Nat) (arr : Nat → List Nat) :
    List (Nat × List (List Nat)) :=
  (pidsOf ds).map (fun p => (p, mkChunks k (arr p)))

/-- One full `RandomIdentitySampler.__iter__` pass. -/
def identityPass (ds : List Item) (bs k : Nat) (arr : Nat → List Nat)
    (sels : List (List Nat)) : Option RState :=
  runLoop (bs / k) sels ⟨initDict ds k arr, pidsOf ds, []⟩

/-- Constraint tying `arr p` to the source: when identity `p` has fewer than
`k` indices, `np.random.choice(idxs, size=k, replace=True)` returns `k`
members of `idxs`; otherwise `random.shuffle` permutes `idxs` in place. -/
def padHyp (ds : List Item) (k : Nat) (arr : Nat → List Nat) : Prop :=
  ∀ p ∈ pidsOf ds,
    ((index_dic ds p).length < k →
      (arr p).length = k ∧ ∀ x ∈ arr p, x ∈ index_dic ds p) ∧
    (¬ (index_dic ds p).length < k → List.Perm (arr p) (index_dic ds p))

instance (ds : List Item) (k : Nat) (arr : Nat → List Nat) :
    Decidable (padHyp ds k arr) :=
  inferInstanceAs (Decidable (∀ p ∈ pidsOf ds,
    (((index_dic ds p).length < k →
      (arr p).length = k ∧ ∀ x ∈ arr p, x ∈ index_dic ds p) ∧
    (¬ (index_dic ds p).length < k → List.Perm (arr p) (index_dic ds p)))))

/-- `self.length` of `RandomIdentitySampler` (lines 44-50). -/
def identityLength (ds : List Item) (k : Nat) : Nat :=
  ((pidsOf ds).map (fun p =>
    let n := max (index_dic ds p).length k
    n - n % k)).sum

/-- The constructed `RandomIdentitySampler` (the fields read afterwards). -/
structure IdentitySampler where
  batch_size : Nat
  num_instances : Nat
  num_pids_per_batch : Nat
  length : Nat
deriving DecidableEq

/-- `RandomIdentitySampler.__init__` (lines 24-50): reject
`batch_size < num_instances`, divide (raising on zero), and assert that at
least `num_pids_per_batch` distinct identities exist. -/
def identityInit (ds : List Item) (bs ni : Nat) : Except PyError IdentitySampler :=
  if bs < ni then Except.error PyError.valueError
  else if ni = 0 then Except.error PyError.zeroDivisionError
  else if (pidsOf ds).length < bs / ni then Except.error PyError.assertionError
  else Except.ok ⟨bs, ni, bs / ni, identityLength ds ni⟩

/-- One recorded draw of `RandomDomainSampler.__iter__` /
`RandomDatasetSampler.__iter__`: the selected label, its remaining pool
before the draw, the drawn indices, and the pool after the removals.  The
first three fields and the removal are the observable effects of lines
130-135; the record lets the theorems speak about the pool at the moment of
each draw. -/
structure DrawLog where
  label : Nat
  poolBefore : List Nat
  draw : List Nat
  poolAfter : List Nat
deriving DecidableEq

/-- State of the `while not stop_sampling` loop. -/
structure DState where
  pools : List (Nat × List Nat)
  out : List Nat
  log : List DrawLog
  stop : Bool
deriving DecidableEq

/-- First-match pool lookup; a missing key reads as the empty pool
(`defaultdict(list)`). -/
def lookupPool : List (Nat × List Nat) → Nat → List Nat
  | [], _ => []
  | (q, xs) :: d, p => if q = p then xs else lookupPool d p

/-- Store a pool back under its key (first match replaced; a missing key is
appended, as `defaultdict` materializes it). -/
def setPool : List (Nat × List Nat) → Nat → List Nat → List (Nat × List Nat)
  | [], p, v => [(p, v)]
  | (q, xs) :: d, p, v => if q = p then (p, v) :: d else (q, xs) :: setPool d p v

/-- `for idx in selected_idxs: domain_dict[domain].remove(idx)`. -/
def removeDraw (pool draw : List Nat) : List Nat :=
  draw.foldl (fun acc x => acc.erase x) pool

/-- Lines 130-139 for a single selected label: `selected_idxs =
random.sample(idxs, n)` (`none` when no valid draw exists, i.e. the pool is
too small and Python raises `ValueError`), emit, remove the drawn indices,
and raise the stop flag when the remaining pool drops below `n`. -/
def drawStep (nimg : Nat) (st : DState) (lab : Nat) (draw : List Nat) :
    Option DState :=
  let pool := lookupPool st.pools lab
  if sampleOK draw pool nimg then
    let pool' := removeDraw pool draw
    some ⟨setPool st.pools lab pool', st.out ++ draw,
          st.log ++ [⟨lab, pool, draw, pool'⟩],
          st.stop || decide (pool'.length < nimg)⟩
  else none

/-- The `for domain in selected_domains` body of one round, given the trace of
(label, draw) pairs for that round.  The stop flag is only accumulated here,
never consulted, so a round always processes every selected label. -/
def processRoundD (nimg : Nat) : List (Nat × List Nat) → DState → Option DState
  | [], st => some st
  | (lab, draw) :: rest, st =>
    match drawStep nimg st lab draw with
    | none => none
    | some st' => processRoundD nimg rest st'

/-- The `while not stop_sampling` loop (lines 126-139).  Each element of
`sels` is one round: the labels `random.sample(self.domains, n_domain)`
returned (checked against the full label list `labels`) together with the
per-label draws.  The stop flag is checked only between rounds. -/
def groupPassLoop (labels : List Nat) (nd nimg : Nat) :
    List (List (Nat × List Nat)) → DState → Option DState
  | [], st => if st.stop then some st else none
  | r :: rest, st =>
    if st.stop then some st
    else if sampleOK (r.map Prod.fst) labels nd then
      match processRoundD nimg r st with
      | none => none
      | some st' => groupPassLoop labels nd nimg rest st'
    else none

/-- Fresh pools, one deep copy per label (`copy.deepcopy(self.domain_dict)`). -/
def initPools (labels : List Nat) (poolOf : Nat → List Nat) :
    List (Nat × List Nat) :=
  labels.map (fun l => (l, poolOf l))

/-- One full `__iter__` pass of the domain / dataset sampler. -/
def groupPass (labels : List Nat) (poolOf : Nat → List Nat) (nd nimg : Nat)
    (sels : List (List (Nat × List Nat))) : Option DState :=
  groupPassLoop labels nd nimg sels ⟨initPools labels poolOf, [], [], false⟩

/-- Lines 112-113 / 171-172: `None` or a non-positive group count defaults to
the number of distinct labels. -/
def resolveGroupCount (labels : List Nat) (n : Option Nat) : Nat :=
  match n with
  | none => labels.length
  | some d => if d = 0 then labels.length else d

/-- The constructed domain / dataset sampler (the fields read afterwards). -/
structure GroupSampler where
  batch_size : Nat
  n_groups : Nat
  n_per_group : Nat
  length : Nat
deriving DecidableEq

/-- Shared `__init__` of `RandomDomainSampler` (lines 101-119) and
`RandomDatasetSampler` (lines 160-178): default the group count, `assert
batch_size % n == 0` (a zero count raises `ZeroDivisionError` at the
modulus), and measure `self.length` by running one full pass. -/
def groupInit (labels : List Nat) (poolOf : Nat → List Nat) (bs : Nat)
    (nopt : Option Nat) (sels : List (List (Nat × List Nat))) :
    Except PyError GroupSampler :=
  if resolveGroupCount labels nopt = 0 then Except.error PyError.zeroDivisionError
  else if bs % resolveGroupCount labels nopt ≠ 0 then
    Except.error PyError.assertionError
  else
    match groupPass labels poolOf (resolveGroupCount labels nopt)
        (bs / resolveGroupCount labels nopt) sels with
    | none => Except.error PyError.iterationFailure
    | some st => Except.ok ⟨bs, resolveGroupCount labels nopt,
        bs / resolveGroupCount labels nopt, st.out.length⟩

/-- `RandomDomainSampler.__init__`. -/
def domainInit (ds : List Item) (bs : Nat) (nopt : Option Nat)
    (sels : List (List (Nat × List Nat))) : Except PyError GroupSampler :=
  groupInit (domainsOf ds) (domain_dict ds) bs nopt sels

/-- `RandomDatasetSampler.__init__`. -/
def datasetInit (ds : List Item) (bs : Nat) (nopt : Option Nat)
    (sels : List (List (Nat × List Nat))) : Except PyError GroupSampler :=
  groupInit (datasetsOf ds) (dataset_dict ds) bs nopt sels

/-- Python extended slice `l[start:stop:step]` for a non-negative positive
step: the elements at indices `start, start+step, ...` below
`min stop (len l)`. -/
def pySlice (l : List Nat) (start stop step : Nat) : List Nat :=
  (List.range' start ((min stop l.length - start + step - 1) / step) step).map
    (fun i => l.getD i 0)

/-- Lines 230-238 for epoch `ep`: the epoch-seeded permutation (`permOf ep n`
models `torch.randperm(n, generator=g)` after `g.manual_seed(ep)`), truncated
to `total_size`; without shuffling, `range(len(dataset))`, truncated the same
way. -/
def epochIndices (permOf : Nat → Nat → List Nat) (dsLen ts : Nat)
    (shuffle : Bool) (ep : Nat) : List Nat :=
  let indices := if shuffle then (permOf ep dsLen).take ts else List.range dsLen
  indices.take ts

/-- Line 241: the strided shard `indices[rank : total_size : num_replicas]`
of epoch `ep`. -/
def epochShard (permOf : Nat → Nat → List Nat) (dsLen ts r rank : Nat)
    (shuffle : Bool) (ep : Nat) : List Nat :=
  pySlice (epochIndices permOf dsLen ts shuffle ep) rank ts r

/-- `self.indices` of `IterDistributedSampler`: the concatenation of this
rank's shards over all epochs (lines 228-241). -/
def iterDistIndices (permOf : Nat → Nat → List Nat)
    (dsLen te bs r rank : Nat) (shuffle : Bool) : List Nat :=
  ((List.range te).map
    (epochShard permOf dsLen (dsLen / (r * bs) * (r * bs)) r rank shuffle)).flatten

/-- The constructed `IterDistributedSampler` (the fields its methods read). -/
structure IterDistState where
  indices : List Nat
  num_samples : Nat
  epoch : Nat
deriving DecidableEq

/-- `IterDistributedSampler.__init__` with `num_replicas` and `rank` supplied
(lines 206-247): assert `total_epochs >= 1`, derive the truncated size and
per-replica count (a zero effective batch raises `ZeroDivisionError`),
materialize all shards, and assert the emitted length matches. -/
def iterDistInit (permOf : Nat → Nat → List Nat)
    (dsLen te bs r rank : Nat) (shuffle : Bool) : Except PyError IterDistState :=
  if te < 1 then Except.error PyError.assertionError
  else if r * bs = 0 then Except.error PyError.zeroDivisionError
  else if (iterDistIndices permOf dsLen te bs r rank shuffle).length
      = dsLen / (r * bs) * (r * bs) / r * te
  then Except.ok ⟨iterDistIndices permOf dsLen te bs r rank shuffle,
        dsLen / (r * bs) * (r * bs) / r * te, 0⟩
  else Except.error PyError.assertionError

/-- `IterDistributedSampler.__iter__`. -/
def iterDistSeq (s : IterDistState) : List Nat := s.indices

/-- `IterDistributedSampler.__len__`. -/
def iterDistLen (s : IterDistState) : Nat := s.num_samples

/-- `IterDistributedSampler.set_epoch` (lines 256-257). -/
def set_epoch (s : IterDistState) (e : Nat) : IterDistState := { s with epoch := e }

/-- The constructed `InferenceSampler` (lines 263-279). -/
structure InfState where
  data_num : Nat
  common_size : Nat
  beginIdx : Nat
  endIdx : Nat
  indices : List Nat
deriving DecidableEq

/-- `InferenceSampler.__init__` with `num_replicas` and `rank` supplied:
assert a non-empty dataset, take `common_size = ceil(data_num / r)` (zero
workers raise `ZeroDivisionError`), and keep the clipped contiguous range. -/
def inferenceInit (dn r rank : Nat) : Except PyError InfState :=
  if dn = 0 then Except.error PyError.assertionError
  else if r = 0 then Except.error PyError.zeroDivisionError
  else Except.ok ⟨dn, (dn + r - 1) / r, (dn + r - 1) / r * rank,
    min ((dn + r - 1) / r * (rank + 1)) dn,
    List.range' ((dn + r - 1) / r * rank)
      (min ((dn + r - 1) / r * (rank + 1)) dn - (dn + r - 1) / r * rank)⟩

/-- `InferenceSampler.__iter__`. -/
def inferenceIter (s : InfState) : List Nat := s.indices

/-- `InferenceSampler.__len__`. -/
def inferenceLen (s : InfState) : Nat := s.indices.length

/-- The shard of indices a given rank receives (empty when construction
fails). -/
def infShard (dn r rank : Nat) : List Nat :=
  match inferenceInit dn r rank with
  | Except.ok s => s.indices
  | Except.error _ => []

/-- Module-level names of `sampler.py`, used to model Python name resolution.
The numbering keys the names the module's code refers to; what matters is
which of them the import lines at the top of the file actually bind. -/
def pyNameTorch : Nat := 0
def pyNameDist : Nat := 1
def pyNameCopy : Nat := 2
def pyNameNp : Nat := 3
def pyNameRandom : Nat := 4
def pyNameDefaultdict : Nat := 5
def pyNameSamplerCls : Nat := 6
def pyNameRandomSamplerCls : Nat := 7
def pyNameSequentialSamplerCls : Nat := 8

/-- The names bound at module level by the import statements of lines 1-6:
`import copy`, `import numpy as np`, `import random`,
`from collections import defaultdict`, and
`from torch.utils.data.sampler import Sampler, RandomSampler,
SequentialSampler`.  Neither `torch` itself nor `dist` is ever bound. -/
def moduleNames : List Nat :=
  [pyNameCopy, pyNameNp, pyNameRandom, pyNameDefaultdict,
   pyNameSamplerCls, pyNameRandomSamplerCls, pyNameSequentialSamplerCls]

/-- Python name resolution against the module namespace: an unbound name
raises `NameError`. -/
def resolveName (n : Nat) : Except PyError Unit :=
  if n ∈ moduleNames then Except.ok () else Except.error (PyError.nameErr n)

/-- Name-resolution trace of `IterDistributedSampler.__init__` (lines
206-241): a `None` `num_replicas` or `rank` looks up `dist` (lines
207-214); then the `total_epochs >= 1` assertion runs (line 215); then
`total_size = len(dataset) // effect_bs * effect_bs` with
`effect_bs = num_replicas * batch_size` raises `ZeroDivisionError` when
that product is zero (lines 223-224); only then does the first loop
iteration evaluate `torch.Generator()` (line 231), which looks up `torch`
before the `shuffle` flag is consulted.  The division is only reached with
`num_replicas` supplied (the `none` path raised on `dist` already), so the
`getD` default is never read. -/
def iterDistInitNames (te bs : Nat) (nr rank : Option Nat) (_shuffle : Bool) :
    Except PyError Unit :=
  match (if nr.isNone then resolveName pyNameDist else Except.ok ()) with
  | Except.error e => Except.error e
  | Except.ok _ =>
    match (if rank.isNone then resolveName pyNameDist else Except.ok ()) with
    | Except.error e => Except.error e
    | Except.ok _ =>
      if te < 1 then Except.error PyError.assertionError
      else if nr.getD 0 * bs = 0 then Except.error PyError.zeroDivisionError
      else resolveName pyNameTorch

/-- Name-resolution trace of `InferenceSampler.__init__` (lines 263-273):
the `data_num > 0` assertion runs first; then a `None` `num_replicas` or
`rank` looks up `dist`. -/
def inferenceInitNames (dn : Nat) (nr rank : Option Nat) : Except PyError Unit :=
  if dn = 0 then Except.error PyError.assertionError
  else
    match (if nr.isNone then resolveName pyNameDist else Except.ok ()) with
    | Except.error e => Except.error e
    | Except.ok _ =>
      if rank.isNone then resolveName pyNameDist else Except.ok ()

/-- Membership in a label group: exactly the in-range indices whose item
carries the label. -/
theorem mem_labelIndices {ds : List Item} {f : Item → Nat} {lab i : Nat} :
    i ∈ labelIndices ds f lab ↔ i < ds.length ∧ f (ds.getD i default) = lab := by
  simp [labelIndices, List.mem_filter, List.mem_range]

/-- Each index belongs to the group of exactly one identity. -/
theorem index_dic_unique {ds : List Item} {i p q : Nat}
    (hp : i ∈ index_dic ds p) (hq : i ∈ index_dic ds q) : p = q := by
  rw [index_dic, mem_labelIndices] at hp hq
  exact hp.2 ▸ hq.2

/-- Label groups are duplicate-free (they are filtered index ranges). -/
theorem labelIndices_nodup (ds : List Item) (f : Item → Nat) (lab : Nat) :
    (labelIndices ds f lab).Nodup :=
  (List.nodup_range ds.length).filter _

/-- Every chunk built by the chunking loop has size `k` and draws its
elements from the input list (or the carried partial chunk / accumulator). -/
theorem chunkLoop_wf (k : Nat) (P : Nat → Prop) :
    ∀ (xs cur : List Nat) (acc : List (List Nat)),
      (∀ c ∈ acc, c.length = k ∧ ∀ i ∈ c, P i) →
      (∀ i ∈ cur, P i) → (∀ i ∈ xs, P i) →
      ∀ c ∈ chunkLoop k xs cur acc, c.length = k ∧ ∀ i ∈ c, P i := by
  intro xs
  induction xs with
  | nil =>
    intro cur acc hacc _ _ c hc
    exact hacc c hc
  | cons x xs ih =>
    intro cur acc hacc hcur hxs c hc
    rw [chunkLoop] at hc
    by_cases hlen : (cur ++ [x]).length = k
    · rw [if_pos hlen] at hc
      refine ih [] (acc ++ [cur ++ [x]]) ?_ (by simp) (fun i hi => hxs i (by simp [hi])) c hc
      intro c' hc'
      rcases List.mem_append.mp hc' with h | h
      · exact hacc c' h
      · have : c' = cur ++ [x] := by simpa using h
        subst this
        refine ⟨hlen, fun i hi => ?_⟩
        rcases List.mem_append.mp hi with h' | h'
        · exact hcur i h'
        · have : i = x := by simpa using h'
          exact this ▸ hxs x (by simp)
    · rw [if_neg hlen] at hc
      refine ih (cur ++ [x]) acc hacc ?_ (fun i hi => hxs i (by simp [hi])) c hc
      intro i hi
      rcases List.mem_append.mp hi with h' | h'
      · exact hcur i h'
      · have : i = x := by simpa using h'
        exact this ▸ hxs x (by simp)

/-- The number of chunks the chunking loop produces. -/
theorem chunkLoop_length (k : Nat) (hk : 0 < k) :
    ∀ (xs cur : List Nat) (acc : List (List Nat)), cur.length < k →
      (chunkLoop k xs cur acc).length = acc.length + (cur.length + xs.length) / k := by
  intro xs
  induction xs with
  | nil =>
    intro cur acc hcur
    rw [chunkLoop]
    simp [Nat.div_eq_of_lt hcur]
  | cons x xs ih =>
    intro cur acc hcur
    rw [chunkLoop]
    by_cases hlen : (cur ++ [x]).length = k
    · rw [if_pos hlen]
      rw [ih [] (acc ++ [cur ++ [x]]) (by simpa using hk)]
      simp only [List.length_append, List.length_nil, List.length_cons] at hlen ⊢
      have h1 : cur.length + (xs.length + 1) = xs.length + k := by omega
      rw [h1, Nat.add_div_right _ hk]
      simp
      omega
    · rw [if_neg hlen]
      have hlt : (cur ++ [x]).length < k := by
        simp only [List.length_append, List.length_cons, List.length_nil] at hlen ⊢
        omega
      rw [ih (cur ++ [x]) acc hlt]
      congr 1
      simp only [List.length_append, List.length_cons, List.length_nil]
      congr 1
      omega

/-- Well-formedness of the chunks of one identity. -/
theorem mkChunks_wf (k : Nat) (P : Nat → Prop) (xs : List Nat)
    (hxs : ∀ i ∈ xs, P i) :
    ∀ c ∈ mkChunks k xs, c.length = k ∧ ∀ i ∈ c, P i :=
  chunkLoop_wf k P xs [] [] (by simp) (by simp) hxs

/-- The chunk count of one identity. -/
theorem mkChunks_length (k : Nat) (hk : 0 < k) (xs : List Nat) :
    (mkChunks k xs).length = xs.length / k := by
  rw [mkChunks, chunkLoop_length k hk xs [] [] (by simpa using hk)]
  simp

/-- What one `pop(0)` does to the dict, seen through first-match lookup:
the popped chunk was the head of `p`'s queue, `p`'s queue loses it, every
other key is untouched, and the total chunk count drops by one. -/
theorem dictPop_lookup {d : List (Nat × List (List Nat))} {p : Nat}
    {c : List Nat} {rest : List (List Nat)} {d' : List (Nat × List (List Nat))}
    (h : dictPop d p = some (c, rest, d')) :
    lookupChunks d p = c :: rest ∧ lookupChunks d' p = rest ∧
    (∀ q, q ≠ p → lookupChunks d' q = lookupChunks d q) ∧
    totalChunks d = totalChunks d' + 1 := by
  induction d generalizing d' with
  | nil => simp [dictPop] at h
  | cons e d ih =>
    obtain ⟨q0, cs⟩ := e
    simp only [dictPop] at h
    by_cases hq : q0 = p
    · rw [if_pos hq] at h
      cases cs with
      | nil => simp at h
      | cons c0 rest0 =>
        simp only [Option.some.injEq, Prod.mk.injEq] at h
        obtain ⟨hc, hrest, hd⟩ := h
        subst hc; subst hrest; subst hd; subst hq
        refine ⟨by simp [lookupChunks], by simp [lookupChunks], ?_, ?_⟩
        · intro q hqp
          simp [lookupChunks, Ne.symm hqp]
        · simp only [totalChunks, List.map_cons, List.sum_cons, List.length_cons]
          omega
    · rw [if_neg hq] at h
      cases hrec : dictPop d p with
      | none => rw [hrec] at h; simp at h
      | some t =>
        obtain ⟨c1, rest1, d1⟩ := t
        rw [hrec] at h
        simp only [Option.some.injEq, Prod.mk.injEq] at h
        obtain ⟨hc, hrest, hd⟩ := h
        subst hc; subst hrest; subst hd
        obtain ⟨h1, h2, h3, h4⟩ := ih hrec
        refine ⟨by simpa [lookupChunks, hq] using h1,
                by simpa [lookupChunks, hq] using h2, ?_, ?_⟩
        · intro q hqp
          by_cases hq0 : q0 = q
          · simp [lookupChunks, hq0]
          · simp only [lookupChunks, if_neg hq0]
            exact h3 q hqp
        · simp only [totalChunks, List.map_cons, List.sum_cons] at h4 ⊢
          omega

/-- Provenance of a pop: the updated dict's queues hold only chunks already
present under the same key, and the popped chunk came from `p`'s queue. -/
theorem dictPop_provenance {d : List (Nat × List (List Nat))} {p : Nat}
    {c : List Nat} {rest : List (List Nat)} {d' : List (Nat × List (List Nat))}
    (h : dictPop d p = some (c, rest, d')) :
    (∀ e ∈ d', ∃ cs, (e.1, cs) ∈ d ∧ e.2 ⊆ cs) ∧
    (∃ cs, (p, cs) ∈ d ∧ c ∈ cs) := by
  induction d generalizing d' with
  | nil => simp [dictPop] at h
  | cons e0 d ih =>
    obtain ⟨q0, cs0⟩ := e0
    simp only [dictPop] at h
    by_cases hq : q0 = p
    · rw [if_pos hq] at h
      cases cs0 with
      | nil => simp at h
      | cons c0 rest0 =>
        simp only [Option.some.injEq, Prod.mk.injEq] at h
        obtain ⟨hc, hrest, hd⟩ := h
        subst hc; subst hrest; subst hd; subst hq
        constructor
        · intro e he
          rcases List.mem_cons.mp he with he | he
          · refine ⟨c0 :: rest0, by simp [he], ?_⟩
            rw [he]
            exact List.subset_cons_self _ _
          · exact ⟨e.2, List.mem_cons_of_mem _ (by simpa using he), fun x hx => hx⟩
        · exact ⟨c0 :: rest0, by simp, by simp⟩
    · rw [if_neg hq] at h
      cases hrec : dictPop d p with
      | none => rw [hrec] at h; simp at h
      | some t =>
        obtain ⟨c1, rest1, d1⟩ := t
        rw [hrec] at h
        simp only [Option.some.injEq, Prod.mk.injEq] at h
        obtain ⟨hc, hrest, hd⟩ := h
        subst hc; subst hrest; subst hd
        obtain ⟨h1, h2⟩ := ih hrec
        constructor
        · intro e he
          rcases List.mem_cons.mp he with he | he
          · exact ⟨cs0, by simp [he], by rw [he]; exact fun x hx => hx⟩
          · obtain ⟨cs, hcs, hsub⟩ := h1 e he
            exact ⟨cs, List.mem_cons_of_mem _ hcs, hsub⟩
        · obtain ⟨cs, hcs, hcmem⟩ := h2
          exact ⟨cs, List.mem_cons_of_mem _ hcs, hcmem⟩

/-- Number of emitted chunks tagged with identity `p`. -/
def countTag (out : List (Nat × List Nat)) (p : Nat) : Nat :=
  (out.filter (fun e => e.1 == p)).length

/-- A well-formed chunk of identity `p`: exactly `k` indices, all from `p`'s
group. -/
def ChunkWF (ds : List Item) (k p : Nat) (c : List Nat) : Prop :=
  c.length = k ∧ ∀ i ∈ c, i ∈ index_dic ds p

/-- Every queued chunk is well formed for its key. -/
def DictWF (ds : List Item) (k : Nat) (d : List (Nat × List (List Nat))) : Prop :=
  ∀ e ∈ d, ∀ c ∈ e.2, ChunkWF ds k e.1 c

/-- Every emitted chunk is well formed for its tag. -/
def OutWF (ds : List Item) (k : Nat) (out : List (Nat × List Nat)) : Prop :=
  ∀ e ∈ out, ChunkWF ds k e.1 e.2

/-- Appending one tagged chunk bumps exactly its own tag count. -/
theorem countTag_append (out : List (Nat × List Nat)) (p : Nat) (c : List Nat)
    (q : Nat) :
    countTag (out ++ [(p, c)]) q = countTag out q + (if p = q then 1 else 0) := by
  by_cases h : p = q
  · simp [countTag, List.filter_append, h]
  · simp [countTag, List.filter_append, h]

/-- One round of the identity loop preserves, for every identity, the sum of
emitted and queued chunks; preserves the sum of emitted count and total
queued chunks; and preserves chunk well-formedness. -/
theorem processRound_spec (sel : List Nat) :
    ∀ (st st' : RState), processRound sel st = some st' →
    (∀ p, countTag st'.out p + (lookupChunks st'.dict p).length
        = countTag st.out p + (lookupChunks st.dict p).length) ∧
    (st'.out.length + totalChunks st'.dict = st.out.length + totalChunks st.dict) ∧
    (∀ ds k, DictWF ds k st.dict → OutWF ds k st.out →
      DictWF ds k st'.dict ∧ OutWF ds k st'.out) := by
  induction sel with
  | nil =>
    intro st st' h
    simp only [processRound, Option.some.injEq] at h
    subst h
    exact ⟨fun _ => rfl, rfl, fun _ _ hd ho => ⟨hd, ho⟩⟩
  | cons p ps ih =>
    intro st st' h
    simp only [processRound] at h
    cases hpop : dictPop st.dict p with
    | none => rw [hpop] at h; simp at h
    | some t =>
      obtain ⟨c, rest, d'⟩ := t
      rw [hpop] at h
      obtain ⟨hl1, hl2, hl3, hl4⟩ := dictPop_lookup hpop
      obtain ⟨hp1, hp2⟩ := dictPop_provenance hpop
      obtain ⟨ihc, ihtot, ihwf⟩ := ih _ _ h
      refine ⟨?_, ?_, ?_⟩
      · intro q
        have hq1 := ihc q
        dsimp only at hq1
        rw [countTag_append] at hq1
        by_cases hq : p = q
        · subst hq
          rw [hl2, if_pos rfl] at hq1
          rw [hq1, hl1]
          simp only [List.length_cons]
          omega
        · rw [hl3 q (fun e => hq e.symm), if_neg hq] at hq1
          rw [hq1]
          omega
      · have ht := ihtot
        dsimp only at ht
        rw [List.length_append] at ht
        rw [ht]
        simp only [List.length_cons, List.length_nil]
        omega
      · intro ds k hd ho
        refine ihwf ds k ?_ ?_
        · intro e he c' hc'
          obtain ⟨cs, hcs, hsub⟩ := hp1 e he
          exact hd (e.1, cs) hcs c' (hsub hc')
        · intro e he
          rcases List.mem_append.mp he with he | he
          · exact ho e he
          · have : e = (p, c) := by simpa using he
            subst this
            obtain ⟨cs, hcs, hcmem⟩ := hp2
            exact hd (p, cs) hcs c hcmem

/-- The identity while loop preserves the same invariants as each round. -/
theorem runLoop_spec (nppb : Nat) :
    ∀ (sels : List (List Nat)) (st st' : RState),
    runLoop nppb sels st = some st' →
    (∀ p, countTag st'.out p + (lookupChunks st'.dict p).length
        = countTag st.out p + (lookupChunks st.dict p).length) ∧
    (st'.out.length + totalChunks st'.dict = st.out.length + totalChunks st.dict) ∧
    (∀ ds k, DictWF ds k st.dict → OutWF ds k st.out →
      DictWF ds k st'.dict ∧ OutWF ds k st'.out) := by
  intro sels
  induction sels with
  | nil =>
    intro st st' h
    simp only [runLoop] at h
    by_cases hc : st.avai.length < nppb
    · rw [if_pos hc] at h
      simp only [Option.some.injEq] at h
      subst h
      exact ⟨fun _ => rfl, rfl, fun _ _ hd ho => ⟨hd, ho⟩⟩
    · rw [if_neg hc] at h
      simp at h
  | cons sel rest ih =>
    intro st st' h
    simp only [runLoop] at h
    by_cases hc : st.avai.length < nppb
    · rw [if_pos hc] at h
      simp only [Option.some.injEq] at h
      subst h
      exact ⟨fun _ => rfl, rfl, fun _ _ hd ho => ⟨hd, ho⟩⟩
    · rw [if_neg hc] at h
      by_cases hs : sampleOK sel st.avai nppb
      · rw [if_pos hs] at h
        cases hpr : processRound sel st with
        | none => rw [hpr] at h; simp at h
        | some st1 =>
          rw [hpr] at h
          obtain ⟨c1, t1, w1⟩ := processRound_spec sel st st1 hpr
          obtain ⟨c2, t2, w2⟩ := ih st1 st' h
          refine ⟨fun p => by rw [c2 p, c1 p], by rw [t2, t1], ?_⟩
          intro ds k hd ho
          obtain ⟨hd1, ho1⟩ := w1 ds k hd ho
          exact w2 ds k hd1 ho1
      · rw [if_neg hs] at h
        simp at h

/-- Looking up a key in a map-built association list. -/
theorem lookupChunks_map (g : Nat → List (List Nat)) :
    ∀ (l : List Nat) (p : Nat),
      lookupChunks (l.map (fun q => (q, g q))) p = if p ∈ l then g p else [] := by
  intro l
  induction l with
  | nil => intro p; simp [lookupChunks]
  | cons q l ih =>
    intro p
    simp only [List.map_cons, lookupChunks]
    by_cases hq : q = p
    · subst hq
      simp
    · rw [if_neg hq, ih p]
      by_cases hp : p ∈ l
      · simp [hp]
      · simp [hp, hq, Ne.symm hq]

/-- The total chunk count of the freshly built dict. -/
theorem totalChunks_initDict (ds : List Item) (k : Nat) (arr : Nat → List Nat) :
    totalChunks (initDict ds k arr)
      = ((pidsOf ds).map (fun p => (mkChunks k (arr p)).length)).sum := by
  rw [totalChunks, initDict, List.map_map]
  rfl

/-- Elements of the padded/shuffled array of `p` lie in `p`'s group, and its
length is `max count k` (`padHyp` unpacked). -/
theorem padHyp_facts {ds : List Item} {k : Nat} {arr : Nat → List Nat}
    (h : padHyp ds k arr) {p : Nat} (hp : p ∈ pidsOf ds) :
    (arr p).length = max (index_dic ds p).length k ∧
    ∀ x ∈ arr p, x ∈ index_dic ds p := by
  obtain ⟨h1, h2⟩ := h p hp
  by_cases hlt : (index_dic ds p).length < k
  · obtain ⟨hl, hm⟩ := h1 hlt
    exact ⟨by omega, hm⟩
  · have hp2 := h2 hlt
    refine ⟨by rw [hp2.length_eq]; omega, fun x hx => hp2.mem_iff.mp hx⟩

/-- The freshly built dict is well formed. -/
theorem initDict_wf {ds : List Item} {k : Nat} {arr : Nat → List Nat}
    (h : padHyp ds k arr) : DictWF ds k (initDict ds k arr) := by
  intro e he c hc
  simp only [initDict, List.mem_map] at he
  obtain ⟨p, hp, he⟩ := he
  subst he
  exact mkChunks_wf k _ (arr p) (padHyp_facts h hp).2 c hc

/-- `n - n % k = k * (n / k)`. -/
theorem sub_mod_eq_mul_div (n k : Nat) : n - n % k = k * (n / k) := by
  have h := Nat.div_add_mod n k
  omega

/-- Flattening same-length chunks. -/
theorem flatten_const_length (k : Nat) :
    ∀ (L : List (List Nat)), (∀ c ∈ L, c.length = k) →
      L.flatten.length = k * L.length := by
  intro L
  induction L with
  | nil => simp
  | cons c L ih =>
    intro h
    simp only [List.flatten_cons, List.length_append, List.length_cons,
      h c (by simp), ih (fun c' hc' => h c' (List.mem_cons_of_mem _ hc'))]
    ring

/-- C1: for every valid configuration and every completed
`RandomIdentitySampler.__iter__` pass, the emitted flat sequence is the
concatenation of the pass's blocks; every block has exactly `num_instances`
indices, all from the group of the identity the block was popped from; each
index belongs to the group of exactly one identity; and no identity
contributes more blocks than `floor(max(count, num_instances) /
num_instances)`. -/
theorem identity_pass_block_structure
    (ds : List Item) (bs k : Nat) (arr : Nat → List Nat)
    (sels : List (List Nat)) (st' : RState)
    (hk : 0 < k) (hbs : k ≤ bs) (hpids : bs / k ≤ (pidsOf ds).length)
    (harr : padHyp ds k arr)
    (hrun : identityPass ds bs k arr sels = some st') :
    identityFinal st' = (st'.out.map Prod.snd).flatten ∧
    (∀ e ∈ st'.out, e.2.length = k ∧ ∀ i ∈ e.2, i ∈ index_dic ds e.1) ∧
    (∀ i p q, i ∈ index_dic ds p → i ∈ index_dic ds q → p = q) ∧
    (∀ p, countTag st'.out p ≤ max (index_dic ds p).length k / k) := by
  obtain ⟨hc, htot, hwf⟩ := runLoop_spec (bs / k) sels _ st' hrun
  have hd0 : DictWF ds k (initDict ds k arr) := initDict_wf harr
  have ho0 : OutWF ds k ([] : List (Nat × List Nat)) := by
    intro e he; simp at he
  obtain ⟨hd', ho'⟩ := hwf ds k hd0 ho0
  refine ⟨rfl, fun e he => ho' e he, fun i p q hp hq => index_dic_unique hp hq, ?_⟩
  intro p
  have h1 := hc p
  dsimp only at h1
  rw [initDict, lookupChunks_map (fun q => mkChunks k (arr q)) (pidsOf ds) p] at h1
  have h0 : countTag [] p = 0 := rfl
  rw [h0] at h1
  by_cases hp : p ∈ pidsOf ds
  · rw [if_pos hp] at h1
    rw [mkChunks_length k hk (arr p), (padHyp_facts harr hp).1] at h1
    have h2 : countTag st'.out p
        ≤ countTag st'.out p + (lookupChunks st'.dict p).length :=
      Nat.le_add_right _ _
    rw [h1] at h2
    simpa using h2
  · rw [if_neg hp] at h1
    simp only [List.length_nil] at h1
    have h2 : countTag st'.out p = 0 := by omega
    rw [h2]
    exact Nat.zero_le _

/-- A three-item dataset: identity 0 owns indices 0 and 1, identity 1 owns
index 2 (and gets padded). -/
def dsW1 : List Item := [⟨0, 0, 0⟩, ⟨0, 0, 0⟩, ⟨1, 0, 0⟩]

/-- Shuffled/padded arrays for `dsW1` with `num_instances = 2`: identity 1's
single index is duplicated by the with-replacement draw. -/
def arrW1 : Nat → List Nat :=
  fun p => if p = 0 then [0, 1] else if p = 1 then [2, 2] else []

/-- The state a pass over `dsW1` reaches with the one-round selection
trace `[[0, 1]]`. -/
def stW1 : RState := ⟨[(0, []), (1, [])], [], [(0, [0, 1]), (1, [2, 2])]⟩

/-- Witness: `identity_pass_block_structure` applied to a concrete completed
pass over `dsW1`. -/
theorem identity_pass_block_structure_witness :
    0 < 2 ∧ 2 ≤ 4 ∧ 4 / 2 ≤ (pidsOf dsW1).length ∧ padHyp dsW1 2 arrW1 ∧
    identityPass dsW1 4 2 arrW1 [[0, 1]] = some stW1 ∧
    (identityFinal stW1 = (stW1.out.map Prod.snd).flatten ∧
     (∀ e ∈ stW1.out, e.2.length = 2 ∧ ∀ i ∈ e.2, i ∈ index_dic dsW1 e.1) ∧
     (∀ i p q, i ∈ index_dic dsW1 p → i ∈ index_dic dsW1 q → p = q) ∧
     (∀ p, countTag stW1.out p ≤ max (index_dic dsW1 p).length 2 / 2)) :=
  ⟨by decide, by decide, by decide, by decide, by decide,
   identity_pass_block_structure dsW1 4 2 arrW1 [[0, 1]] stW1 (by decide)
     (by decide) (by decide) (by decide) (by decide)⟩

/-- All pools in a pool map are duplicate-free. -/
def PoolsWF (ps : List (Nat × List Nat)) : Prop := ∀ e ∈ ps, e.2.Nodup

/-- The per-draw record invariant of claims about the domain / dataset
samplers: the draw has exactly `nimg` pairwise-distinct indices, all present
in the pool at the moment of the draw, and all absent from the pool
afterwards, the after-pool being exactly the before-pool minus the draw. -/
def LogEntryWF (nimg : Nat) (e : DrawLog) : Prop :=
  e.draw.length = nimg ∧ e.draw.Nodup ∧ (∀ x ∈ e.draw, x ∈ e.poolBefore) ∧
  e.poolAfter = removeDraw e.poolBefore e.draw ∧
  (∀ x ∈ e.draw, x ∉ e.poolAfter)

/-- Every logged draw is well formed. -/
def LogWF (nimg : Nat) (log : List DrawLog) : Prop := ∀ e ∈ log, LogEntryWF nimg e

/-- Looking up a pool of a well-formed map gives a duplicate-free list. -/
theorem lookupPool_nodup {ps : List (Nat × List Nat)} (h : PoolsWF ps)
    (lab : Nat) : (lookupPool ps lab).Nodup := by
  induction ps with
  | nil => simp [lookupPool]
  | cons e ps ih =>
    obtain ⟨q, xs⟩ := e
    rw [lookupPool]
    by_cases hq : q = lab
    · rw [if_pos hq]
      exact h (q, xs) (by simp)
    · rw [if_neg hq]
      exact ih (fun e' he' => h e' (List.mem_cons_of_mem _ he'))

/-- Entries of an updated pool map come from the old map or are the new
binding. -/
theorem setPool_mem {ps : List (Nat × List Nat)} {lab : Nat} {v : List Nat} :
    ∀ e ∈ setPool ps lab v, e ∈ ps ∨ e = (lab, v) := by
  induction ps with
  | nil =>
    intro e he
    simp only [setPool] at he
    right
    simpa using he
  | cons e0 ps ih =>
    obtain ⟨q, xs⟩ := e0
    intro e he
    simp only [setPool] at he
    by_cases hq : q = lab
    · rw [if_pos hq] at he
      rcases List.mem_cons.mp he with he | he
      · right; exact he
      · left; exact List.mem_cons_of_mem _ he
    · rw [if_neg hq] at he
      rcases List.mem_cons.mp he with he | he
      · left; exact he ▸ List.mem_cons_self _ _
      · rcases ih e he with h | h
        · left; exact List.mem_cons_of_mem _ h
        · right; exact h

/-- Removing drawn indices only shrinks the pool. -/
theorem removeDraw_subset (draw : List Nat) :
    ∀ pool : List Nat, removeDraw pool draw ⊆ pool := by
  induction draw with
  | nil => intro pool; exact fun x hx => hx
  | cons y draw ih =>
    intro pool
    rw [removeDraw] at *
    intro x hx
    exact List.erase_subset _ _ (ih (pool.erase y) hx)

/-- Removing drawn indices preserves duplicate-freedom. -/
theorem removeDraw_nodup (draw : List Nat) :
    ∀ pool : List Nat, pool.Nodup → (removeDraw pool draw).Nodup := by
  induction draw with
  | nil => intro pool h; exact h
  | cons y draw ih =>
    intro pool h
    exact ih (pool.erase y) (h.erase y)

/-- Every drawn index is gone from the pool after the removals. -/
theorem removeDraw_not_mem {draw : List Nat} :
    ∀ {pool : List Nat}, pool.Nodup → draw.Nodup →
      ∀ x ∈ draw, x ∉ removeDraw pool draw := by
  induction draw with
  | nil => intro pool _ _ x hx; simp at hx
  | cons y draw ih =>
    intro pool hpool hdraw x hx
    rw [removeDraw, List.foldl_cons]
    rcases List.mem_cons.mp hx with hx | hx
    · subst hx
      intro hmem
      exact hpool.not_mem_erase (removeDraw_subset draw _ hmem)
    · exact ih (hpool.erase y) (List.Nodup.of_cons hdraw) x hx

/-- What one successful per-label draw does: it appends the draw to the
output, appends one well-formed record to the log, and keeps all pools
duplicate-free. -/
theorem drawStep_spec {nimg : Nat} {st st' : DState} {lab : Nat}
    {draw : List Nat} (h : drawStep nimg st lab draw = some st') :
    st'.out = st.out ++ draw ∧ draw.length = nimg ∧
    st'.log = st.log ++ [⟨lab, lookupPool st.pools lab, draw,
      removeDraw (lookupPool st.pools lab) draw⟩] ∧
    (PoolsWF st.pools → PoolsWF st'.pools ∧
      LogEntryWF nimg ⟨lab, lookupPool st.pools lab, draw,
        removeDraw (lookupPool st.pools lab) draw⟩) := by
  rw [drawStep] at h
  by_cases hs : sampleOK draw (lookupPool st.pools lab) nimg
  · rw [if_pos hs] at h
    simp only [Option.some.injEq] at h
    subst h
    obtain ⟨hlen, hnd, hsub⟩ := hs
    refine ⟨rfl, hlen, rfl, ?_⟩
    intro hpools
    have hpnd : (lookupPool st.pools lab).Nodup := lookupPool_nodup hpools lab
    constructor
    · intro e he
      rcases setPool_mem e he with h | h
      · exact hpools e h
      · rw [h]
        exact removeDraw_nodup draw _ hpnd
    · exact ⟨hlen, hnd, hsub, rfl, removeDraw_not_mem hpnd hnd⟩
  · rw [if_neg hs] at h
    simp at h

/-- A selected label whose remaining pool is smaller than `items_per_group`
makes the draw fail: no valid `random.sample` result exists. -/
theorem drawStep_short_pool {nimg : Nat} (st : DState) (lab : Nat)
    (draw : List Nat) (h : (lookupPool st.pools lab).length < nimg) :
    drawStep nimg st lab draw = none := by
  rw [drawStep]
  rw [if_neg]
  intro hs
  obtain ⟨hlen, hnd, hsub⟩ := hs
  have := (hnd.subperm (fun x hx => hsub x hx)).length_le
  omega

/-- One round of the domain / dataset loop processes every selected label in
full (the stop flag is never consulted inside a round): the outputs and the
log grow by exactly the round's draws, and well-formedness is preserved. -/
theorem processRoundD_spec (nimg : Nat) :
    ∀ (r : List (Nat × List Nat)) (st st' : DState),
      processRoundD nimg r st = some st' →
      st'.out = st.out ++ (r.map Prod.snd).flatten ∧
      st'.out.length = st.out.length + nimg * r.length ∧
      st'.log.length = st.log.length + r.length ∧
      (PoolsWF st.pools → LogWF nimg st.log →
        PoolsWF st'.pools ∧ LogWF nimg st'.log) := by
  intro r
  induction r with
  | nil =>
    intro st st' h
    simp only [processRoundD, Option.some.injEq] at h
    subst h
    exact ⟨by simp, by simp, by simp, fun hp hl => ⟨hp, hl⟩⟩
  | cons e r ih =>
    obtain ⟨lab, draw⟩ := e
    intro st st' h
    simp only [processRoundD] at h
    cases hds : drawStep nimg st lab draw with
    | none => rw [hds] at h; simp at h
    | some st1 =>
      rw [hds] at h
      obtain ⟨ho1, hlen1, hl1, hwf1⟩ := drawStep_spec hds
      obtain ⟨ho2, hlen2, hl2, hwf2⟩ := ih st1 st' h
      refine ⟨?_, ?_, ?_, ?_⟩
      · rw [ho2, ho1]
        simp
      · rw [hlen2, ho1]
        simp only [List.length_append, List.length_cons, hlen1]
        ring
      · rw [hl2, hl1]
        simp only [List.length_append, List.length_cons, List.length_nil]
        omega
      · intro hp hl
        obtain ⟨hp1, hentry⟩ := hwf1 hp
        refine hwf2 hp1 ?_
        rw [hl1]
        intro e' he'
        rcases List.mem_append.mp he' with he' | he'
        · exact hl e' he'
        · have : e' = ⟨lab, lookupPool st.pools lab, draw,
              removeDraw (lookupPool st.pools lab) draw⟩ := by simpa using he'
          exact this ▸ hentry

/-- The domain / dataset while loop: every completed run's output length is
the initial length plus a whole number of full rounds of
`items_per_group * group_count` indices, and the log stays well formed. -/
theorem groupPassLoop_spec (labels : List Nat) (nd nimg : Nat) :
    ∀ (sels : List (List (Nat × List Nat))) (st st' : DState),
      groupPassLoop labels nd nimg sels st = some st' →
      (∃ t, st'.out.length = st.out.length + t * (nimg * nd)) ∧
      (PoolsWF st.pools → LogWF nimg st.log →
        PoolsWF st'.pools ∧ LogWF nimg st'.log) := by
  intro sels
  induction sels with
  | nil =>
    intro st st' h
    simp only [groupPassLoop] at h
    by_cases hs : st.stop
    · rw [if_pos hs] at h
      simp only [Option.some.injEq] at h
      subst h
      exact ⟨⟨0, by simp⟩, fun hp hl => ⟨hp, hl⟩⟩
    · rw [if_neg hs] at h
      simp at h
  | cons r rest ih =>
    intro st st' h
    simp only [groupPassLoop] at h
    by_cases hs : st.stop
    · rw [if_pos hs] at h
      simp only [Option.some.injEq] at h
      subst h
      exact ⟨⟨0, by simp⟩, fun hp hl => ⟨hp, hl⟩⟩
    · rw [if_neg hs] at h
      by_cases hok : sampleOK (r.map Prod.fst) labels nd
      · rw [if_pos hok] at h
        cases hpr : processRoundD nimg r st with
        | none => rw [hpr] at h; simp at h
        | some st1 =>
          rw [hpr] at h
          obtain ⟨_, hlen1, _, hwf1⟩ := processRoundD_spec nimg r st st1 hpr
          obtain ⟨⟨t, hlen2⟩, hwf2⟩ := ih st1 st' h
          have hr : r.length = nd := by
            have := hok.1
            simpa using this
          refine ⟨⟨t + 1, ?_⟩, ?_⟩
          · rw [hlen2, hlen1, hr]
            ring
          · intro hp hl
            obtain ⟨hp1, hl1⟩ := hwf1 hp hl
            exact hwf2 hp1 hl1
      · rw [if_neg hok] at h
        simp at h

/-- Freshly copied pools inherit duplicate-freedom from the label groups. -/
theorem initPools_wf (labels : List Nat) (poolOf : Nat → List Nat)
    (h : ∀ l, (poolOf l).Nodup) : PoolsWF (initPools labels poolOf) := by
  intro e he
  simp only [initPools, List.mem_map] at he
  obtain ⟨l, _, he⟩ := he
  subst he
  exact h l

/-- Balanced-output property of one completed pass, for any label grouping
with duplicate-free pools. -/
theorem groupPass_balanced (labels : List Nat) (poolOf : Nat → List Nat)
    (hpool : ∀ l, (poolOf l).Nodup) (nd ni : Nat)
    (sels : List (List (Nat × List Nat))) (st' : DState)
    (h : groupPass labels poolOf nd ni sels = some st') :
    (ni * nd) ∣ st'.out.length ∧ LogWF ni st'.log := by
  obtain ⟨⟨t, hlen⟩, hwf⟩ := groupPassLoop_spec labels nd ni sels _ st' h
  dsimp only at hlen
  obtain ⟨_, hl⟩ := hwf (initPools_wf labels poolOf hpool)
    (fun e he => by simp at he)
  refine ⟨⟨t, by rw [Nat.mul_comm]; simpa using hlen⟩, hl⟩

/-- C2: every pass of `RandomDomainSampler` (and of `RandomDatasetSampler`)
that completes without error emits a sequence whose length is a multiple of
`n_img_per_domain * n_domain` (resp. `n_img_per_dset * n_dataset`), and in
each round every selected label contributes exactly `items_per_group`
pairwise-distinct indices, each present in that label's remaining pool at
the moment of the draw and removed from the pool afterwards. -/
theorem group_pass_balanced_rounds
    (dsA dsB : List Item) (nd ni : Nat)
    (selsA selsB : List (List (Nat × List Nat))) (stA stB : DState)
    (hA : groupPass (domainsOf dsA) (domain_dict dsA) nd ni selsA = some stA)
    (hB : groupPass (datasetsOf dsB) (dataset_dict dsB) nd ni selsB = some stB) :
    ((ni * nd) ∣ stA.out.length ∧ LogWF ni stA.log) ∧
    ((ni * nd) ∣ stB.out.length ∧ LogWF ni stB.log) :=
  ⟨groupPass_balanced _ _ (fun l => labelIndices_nodup dsA Item.camid l) nd ni
      selsA stA hA,
   groupPass_balanced _ _ (fun l => labelIndices_nodup dsB Item.dsetid l) nd ni
      selsB stB hB⟩

/-- A four-item dataset crossing two cameras with two origin datasets. -/
def dsW2 : List Item := [⟨0, 0, 0⟩, ⟨0, 0, 1⟩, ⟨0, 1, 0⟩, ⟨0, 1, 1⟩]

/-- The completed camera-grouped pass over `dsW2` for the concrete two-round
trace used by the witness. -/
def stW2A : DState :=
  ⟨[(0, []), (1, [])], [0, 2, 1, 3],
   [⟨0, [0, 1], [0], [1]⟩, ⟨1, [2, 3], [2], [3]⟩, ⟨0, [1], [1], []⟩,
    ⟨1, [3], [3], []⟩], true⟩

/-- The completed dataset-grouped pass over `dsW2` for the concrete
two-round trace used by the witness. -/
def stW2B : DState :=
  ⟨[(0, []), (1, [])], [0, 1, 2, 3],
   [⟨0, [0, 2], [0], [2]⟩, ⟨1, [1, 3], [1], [3]⟩, ⟨0, [2], [2], []⟩,
    ⟨1, [3], [3], []⟩], true⟩

/-- Witness: `group_pass_balanced_rounds` applied to concrete completed
passes of both samplers over `dsW2`. -/
theorem group_pass_balanced_rounds_witness :
    groupPass (domainsOf dsW2) (domain_dict dsW2) 2 1
      [[(0, [0]), (1, [2])], [(0, [1]), (1, [3])]] = some stW2A ∧
    groupPass (datasetsOf dsW2) (dataset_dict dsW2) 2 1
      [[(0, [0]), (1, [1])], [(0, [2]), (1, [3])]] = some stW2B ∧
    (((1 * 2) ∣ stW2A.out.length ∧ LogWF 1 stW2A.log) ∧
     ((1 * 2) ∣ stW2B.out.length ∧ LogWF 1 stW2B.log)) :=
  ⟨by decide, by decide,
   group_pass_balanced_rounds dsW2 dsW2 2 1
     [[(0, [0]), (1, [2])], [(0, [1]), (1, [3])]]
     [[(0, [0]), (1, [1])], [(0, [2]), (1, [3])]] stW2A stW2B
     (by decide) (by decide)⟩

/-- A failed draw aborts the whole round. -/
theorem processRoundD_head_fail {nimg lab : Nat} {draw : List Nat}
    (rest : List (Nat × List Nat)) (st : DState)
    (h : drawStep nimg st lab draw = none) :
    processRoundD nimg ((lab, draw) :: rest) st = none := by
  simp only [processRoundD, h]

/-- A round whose body fails aborts the whole pass (when the loop was still
running). -/
theorem groupPassLoop_round_fail (labels : List Nat) (nd nimg : Nat)
    (r : List (Nat × List Nat)) (rest : List (List (Nat × List Nat)))
    (st : DState) (hstop : st.stop = false)
    (hfail : processRoundD nimg r st = none) :
    groupPassLoop labels nd nimg (r :: rest) st = none := by
  simp only [groupPassLoop, hstop, Bool.false_eq_true, if_false]
  by_cases hok : sampleOK (r.map Prod.fst) labels nd
  · rw [if_pos hok, hfail]
  · rw [if_neg hok]

/-- A five-item dataset whose camera 1 owns a single index, fewer than
`n_img_per_domain = 2`. -/
def dsW3 : List Item := [⟨0, 0, 0⟩, ⟨0, 0, 0⟩, ⟨0, 0, 0⟩, ⟨0, 0, 0⟩, ⟨0, 1, 0⟩]

/-- C3: labels are selected from the full label set with the stop condition
checked only between rounds, so a round always completes in full
(`processRoundD` emits every selected label's draw and logs every label,
whatever the stop flag does mid-round); and a selected label whose remaining
pool holds fewer than `items_per_group` indices makes the
without-replacement draw fail instead of emitting indices — concretely, on
`dsW3` the singleton selection of camera 1 is a valid `random.sample` over
the full camera list, yet every pass whose first round selects camera 1
(pool of size 1 < 2) fails, for every draw and every continuation of the
trace. -/
theorem group_pass_full_set_and_failure
    (nimg : Nat) (st : DState) (lab : Nat) (draw : List Nat)
    (hshort : (lookupPool st.pools lab).length < nimg)
    (r : List (Nat × List Nat)) (st2 st2' : DState)
    (hround : processRoundD nimg r st2 = some st2') :
    drawStep nimg st lab draw = none ∧
    st2'.out = st2.out ++ (r.map Prod.snd).flatten ∧
    st2'.log.length = st2.log.length + r.length ∧
    sampleOK [1] (domainsOf dsW3) 1 ∧
    (∀ (d : List Nat) (rest : List (List (Nat × List Nat))),
      groupPass (domainsOf dsW3) (domain_dict dsW3) 1 2 ([(1, d)] :: rest)
        = none) := by
  obtain ⟨ho, _, hl, _⟩ := processRoundD_spec nimg r st2 st2' hround
  refine ⟨drawStep_short_pool st lab draw hshort, ho, hl, by decide, ?_⟩
  intro d rest
  rw [groupPass]
  apply groupPassLoop_round_fail
  · rfl
  · apply processRoundD_head_fail
    apply drawStep_short_pool
    decide

/-- Witness: `group_pass_full_set_and_failure` applied to the completed
state of the `dsW2` camera pass (whose pools are exhausted) and an empty
round. -/
theorem group_pass_full_set_and_failure_witness :
    (lookupPool stW2A.pools 0).length < 2 ∧
    processRoundD 2 [] stW2A = some stW2A ∧
    (drawStep 2 stW2A 0 [] = none ∧
     stW2A.out = stW2A.out ++ (([] : List (Nat × List Nat)).map Prod.snd).flatten ∧
     stW2A.log.length = stW2A.log.length + ([] : List (Nat × List Nat)).length ∧
     sampleOK [1] (domainsOf dsW3) 1 ∧
     (∀ (d : List Nat) (rest : List (List (Nat × List Nat))),
       groupPass (domainsOf dsW3) (domain_dict dsW3) 1 2 ([(1, d)] :: rest)
         = none)) :=
  ⟨by decide, by decide,
   group_pass_full_set_and_failure 2 stW2A 0 [] (by decide) [] stW2A stW2A
     (by decide)⟩

/-- Number of indices a stride-`R` slice starting at `rank < R` takes from a
prefix of length `m * R`. -/
theorem ceil_stride (m R rank : Nat) (hR : 0 < R) (h : rank < R) :
    (m * R - rank + R - 1) / R = m := by
  cases m with
  | zero =>
    apply Nat.div_eq_of_lt
    omega
  | succ m' =>
    have hmul : (m' + 1) * R = R * m' + R := by ring
    have ht : (m' + 1) * R - rank + R - 1 = R * m' + (R - 1 - rank + R) := by
      omega
    rw [ht, Nat.mul_add_div hR, Nat.add_div_right _ hR,
      Nat.div_eq_of_lt (show R - 1 - rank < R by omega)]

/-- Length of a Python extended slice. -/
theorem pySlice_length (l : List Nat) (start stop step : Nat) :
    (pySlice l start stop step).length
      = (min stop l.length - start + step - 1) / step := by
  simp [pySlice]

/-- Length of the per-epoch truncated index list. -/
theorem epochIndices_length (permOf : Nat → Nat → List Nat) (dsLen ts : Nat)
    (shuffle : Bool) (ep : Nat) (hts : ts ≤ dsLen)
    (hperm : (permOf ep dsLen).length = dsLen) :
    (epochIndices permOf dsLen ts shuffle ep).length = ts := by
  cases shuffle with
  | true => simp [epochIndices, List.length_take, hperm]; omega
  | false => simp [epochIndices, List.length_take]; omega

/-- Reading a list back off its index range. -/
theorem map_getD_range : ∀ l : List Nat,
    (List.range l.length).map (fun i => l.getD i 0) = l := by
  intro l
  induction l with
  | nil => simp
  | cons a l ih =>
    rw [List.length_cons, List.range_succ_eq_map, List.map_cons, List.map_map]
    have hcongr : (List.range l.length).map ((fun i => (a :: l).getD i 0) ∘ Nat.succ)
        = (List.range l.length).map (fun i => l.getD i 0) :=
      List.map_congr_left (fun i _ => by
        simp [Function.comp, List.getD_cons_succ])
    rw [hcongr, ih]
    simp

/-- An index in a stride-`R` arithmetic range starting below `R` determines
its residue. -/
theorem mem_range'_mod {x r m R : Nat} (hr : r < R)
    (hx : x ∈ List.range' r m R) : x % R = r := by
  rw [List.mem_range'] at hx
  obtain ⟨i, _, hx⟩ := hx
  subst hx
  rw [Nat.add_mul_mod_self_left]
  exact Nat.mod_eq_of_lt hr

/-- The stride-`R` arithmetic ranges with distinct starts below `R` are
pairwise disjoint. -/
theorem pairwise_disjoint_ranges (m R : Nat) :
    ∀ l : List Nat, (∀ r ∈ l, r < R) → l.Pairwise (· ≠ ·) →
      (l.map (fun r => List.range' r m R)).Pairwise List.Disjoint := by
  intro l
  induction l with
  | nil => intro _ _; simp
  | cons r l ih =>
    intro hb hp
    rw [List.map_cons]
    constructor
    · intro l2 hl2
      simp only [List.mem_map] at hl2
      obtain ⟨r2, hr2, hl2⟩ := hl2
      subst hl2
      intro x hx1 hx2
      have h1 := mem_range'_mod (hb r (by simp)) hx1
      have h2 := mem_range'_mod (hb r2 (List.mem_cons_of_mem _ hr2)) hx2
      exact (List.rel_of_pairwise_cons hp hr2) (h1 ▸ h2 ▸ rfl)
    · exact ih (fun r' hr' => hb r' (List.mem_cons_of_mem _ hr'))
        (List.Pairwise.of_cons hp)

/-- The stride-`R` ranges `r, r+R, r+2R, ...` for `r = 0..R-1`, each of
length `m`, tile `range (m * R)` up to order. -/
theorem strided_range_perm (R m : Nat) (hR : 0 < R) :
    List.Perm (((List.range R).map (fun r => List.range' r m R)).flatten)
      (List.range (m * R)) := by
  have hnd : (((List.range R).map (fun r => List.range' r m R)).flatten).Nodup := by
    rw [List.nodup_flatten]
    constructor
    · intro l' hl'
      simp only [List.mem_map] at hl'
      obtain ⟨r, _, hl'⟩ := hl'
      subst hl'
      exact List.nodup_range' r m R hR
    · exact pairwise_disjoint_ranges m R (List.range R)
        (fun r hr => List.mem_range.mp hr) (List.nodup_range R)
  rw [List.perm_ext_iff_of_nodup hnd (List.nodup_range _)]
  intro x
  rw [List.mem_flatten, List.mem_range]
  constructor
  · rintro ⟨l', hl', hx⟩
    simp only [List.mem_map] at hl'
    obtain ⟨r, hr, hl'⟩ := hl'
    subst hl'
    rw [List.mem_range'] at hx
    obtain ⟨i, hi, hx⟩ := hx
    subst hx
    have hrR : r < R := List.mem_range.mp hr
    have h3 : R * (i + 1) ≤ R * m := Nat.mul_le_mul_left R (by omega)
    have h4 : R * (i + 1) = R * i + R := by ring
    have h5 : R * m = m * R := by ring
    omega
  · intro hx
    refine ⟨List.range' (x % R) m R, ?_, ?_⟩
    · exact List.mem_map.mpr ⟨x % R, List.mem_range.mpr (Nat.mod_lt x hR), rfl⟩
    · rw [List.mem_range']
      refine ⟨x / R, (Nat.div_lt_iff_lt_mul hR).mpr hx, (Nat.mod_add_div x R).symm⟩

/-- Summing a constant over a list. -/
theorem sum_map_const_nat (c : Nat) :
    ∀ l : List Nat, (l.map (fun _ => c)).sum = l.length * c := by
  intro l
  induction l with
  | nil => simp
  | cons a l ih => simp [ih]; ring

/-- The stride-`R` slices of a list of length `m * R`, one per rank
`0..R-1`, reconstruct the whole list up to order. -/
theorem pySlice_reconstruction (l : List Nat) (R m : Nat) (hR : 0 < R)
    (hlen : l.length = m * R) :
    List.Perm (((List.range R).map (fun r => pySlice l r (m * R) R)).flatten) l := by
  have hcongr : (List.range R).map (fun r => pySlice l r (m * R) R)
      = (List.range R).map (fun r => (List.range' r m R).map (fun i => l.getD i 0)) := by
    refine List.map_congr_left (fun r hr => ?_)
    rw [pySlice, hlen, Nat.min_self, ceil_stride m R r hR (List.mem_range.mp hr)]
  rw [hcongr]
  have hmapmap : (List.range R).map (fun r => (List.range' r m R).map (fun i => l.getD i 0))
      = ((List.range R).map (fun r => List.range' r m R)).map (List.map (fun i => l.getD i 0)) := by
    rw [List.map_map]
    rfl
  rw [hmapmap, ← List.map_flatten]
  have hperm := (strided_range_perm R m hR).map (fun i => l.getD i 0)
  have hfinal : (List.range (m * R)).map (fun i => l.getD i 0) = l := by
    rw [← hlen]
    exact map_getD_range l
  rw [hfinal] at hperm
  exact hperm

/-- Length of one epoch shard under a valid configuration. -/
theorem epochShard_length (permOf : Nat → Nat → List Nat) (dsLen m R rank : Nat)
    (shuffle : Bool) (ep : Nat) (hR : 0 < R) (hrank : rank < R)
    (hts : m * R ≤ dsLen) (hperm : (permOf ep dsLen).length = dsLen) :
    (epochShard permOf dsLen (m * R) R rank shuffle ep).length = m := by
  rw [epochShard, pySlice_length,
    epochIndices_length permOf dsLen (m * R) shuffle ep hts hperm,
    Nat.min_self]
  exact ceil_stride m R rank hR hrank

/-- `total_size` factors as a multiple of the replica count. -/
theorem total_size_factor (dsLen bs R : Nat) :
    dsLen / (R * bs) * (R * bs) = (dsLen / (R * bs) * bs) * R := by
  ring

/-- Length of the materialized per-rank plan. -/
theorem iterDistIndices_length (permOf : Nat → Nat → List Nat)
    (dsLen te bs R rank : Nat) (shuffle : Bool) (hbs : 0 < bs) (hR : 0 < R)
    (hrank : rank < R)
    (hperm : ∀ e < te, (permOf e dsLen).length = dsLen) :
    (iterDistIndices permOf dsLen te bs R rank shuffle).length
      = dsLen / (R * bs) * (R * bs) / R * te := by
  set m := dsLen / (R * bs) * bs with hm
  have hts : dsLen / (R * bs) * (R * bs) = m * R := total_size_factor dsLen bs R
  have htsle : m * R ≤ dsLen := by
    rw [← hts]
    exact Nat.div_mul_le_self dsLen (R * bs)
  rw [iterDistIndices, List.length_flatten, List.map_map]
  have hcongr : (List.range te).map
      (List.length ∘ epochShard permOf dsLen (dsLen / (R * bs) * (R * bs)) R rank shuffle)
      = (List.range te).map (fun _ => m) := by
    refine List.map_congr_left (fun ep hep => ?_)
    have := epochShard_length permOf dsLen m R rank shuffle ep hR hrank htsle
      (hperm ep (List.mem_range.mp hep))
    rw [Function.comp]
    rw [← hts] at this
    exact this
  rw [hcongr, sum_map_const_nat, List.length_range, hts,
    Nat.mul_div_cancel _ hR]
  ring

/-- C5: for `IterDistributedSampler` with `shuffle = True` and a valid
configuration, each rank's materialized plan has exactly
`total_size / num_replicas * total_epochs` indices (so the construction-time
length assertion passes and construction succeeds); and for each epoch, the
strided shards of ranks `0..num_replicas-1` taken together reconstruct the
seed-`e` permutation truncated to
`total_size = floor(len / (num_replicas * batch_size)) * num_replicas *
batch_size`, with no duplicate index within the epoch. -/
theorem iter_dist_shard_reconstruction
    (permOf : Nat → Nat → List Nat) (dsLen te bs R rank : Nat)
    (hbs : 0 < bs) (hR : 0 < R) (hrank : rank < R) (hte : 1 ≤ te)
    (hperm : ∀ e < te, List.Perm (permOf e dsLen) (List.range dsLen)) :
    (iterDistIndices permOf dsLen te bs R rank true).length
      = dsLen / (R * bs) * (R * bs) / R * te ∧
    (∀ e < te,
      List.Perm (((List.range R).map (fun r =>
          epochShard permOf dsLen (dsLen / (R * bs) * (R * bs)) R r true e)).flatten)
        ((permOf e dsLen).take (dsLen / (R * bs) * (R * bs))) ∧
      (((List.range R).map (fun r =>
          epochShard permOf dsLen (dsLen / (R * bs) * (R * bs)) R r true e)).flatten).Nodup) ∧
    iterDistInit permOf dsLen te bs R rank true
      = Except.ok ⟨iterDistIndices permOf dsLen te bs R rank true,
          dsLen / (R * bs) * (R * bs) / R * te, 0⟩ := by
  have hlenperm : ∀ e < te, (permOf e dsLen).length = dsLen := fun e he => by
    rw [(hperm e he).length_eq, List.length_range]
  have hlen := iterDistIndices_length permOf dsLen te bs R rank true hbs hR hrank
    hlenperm
  have hts : dsLen / (R * bs) * (R * bs)
      = dsLen / (R * bs) * bs * R := total_size_factor dsLen bs R
  have htsle : dsLen / (R * bs) * (R * bs) ≤ dsLen :=
    Nat.div_mul_le_self dsLen (R * bs)
  refine ⟨hlen, ?_, ?_⟩
  · intro e he
    have hEq : epochIndices permOf dsLen (dsLen / (R * bs) * (R * bs)) true e
        = (permOf e dsLen).take (dsLen / (R * bs) * (R * bs)) := by
      rw [epochIndices]
      simp [List.take_take]
    have hlenl : (epochIndices permOf dsLen (dsLen / (R * bs) * (R * bs)) true e).length
        = dsLen / (R * bs) * (R * bs) :=
      epochIndices_length permOf dsLen _ true e htsle (hlenperm e he)
    have hrec := pySlice_reconstruction
      (epochIndices permOf dsLen (dsLen / (R * bs) * (R * bs)) true e) R
      (dsLen / (R * bs) * bs) hR (by rw [hlenl, hts])
    rw [← hts] at hrec
    have hshards : (List.range R).map (fun r =>
        epochShard permOf dsLen (dsLen / (R * bs) * (R * bs)) R r true e)
        = (List.range R).map (fun r =>
            pySlice (epochIndices permOf dsLen (dsLen / (R * bs) * (R * bs)) true e)
              r (dsLen / (R * bs) * (R * bs)) R) := rfl
    rw [hshards, hEq] at *
    have hnodup : ((permOf e dsLen).take (dsLen / (R * bs) * (R * bs))).Nodup :=
      (((hperm e he).nodup_iff).mpr (List.nodup_range dsLen)).sublist
        (List.take_sublist _ _)
    exact ⟨hrec, hrec.nodup_iff.mpr hnodup⟩
  · rw [iterDistInit, if_neg (by omega : ¬ te < 1),
      if_neg (Nat.mul_ne_zero (by omega) (by omega) :
        ¬ R * bs = 0),
      if_pos hlen]

/-- A concrete epoch-seeded permutation oracle: the identity permutation for
every seed. -/
def permW : Nat → Nat → List Nat := fun _ n => List.range n

/-- Witness: `iter_dist_shard_reconstruction` at `dsLen = 4`, one epoch,
`batch_size = 1`, two replicas, rank 0. -/
theorem iter_dist_shard_reconstruction_witness :
    (0 : Nat) < 1 ∧ (0 : Nat) < 2 ∧ (0 : Nat) < 2 ∧ 1 ≤ 1 ∧
    (∀ e < 1, List.Perm (permW e 4) (List.range 4)) ∧
    ((iterDistIndices permW 4 1 1 2 0 true).length = 4 / (2 * 1) * (2 * 1) / 2 * 1 ∧
     (∀ e < 1,
       List.Perm (((List.range 2).map (fun r =>
           epochShard permW 4 (4 / (2 * 1) * (2 * 1)) 2 r true e)).flatten)
         ((permW e 4).take (4 / (2 * 1) * (2 * 1))) ∧
       (((List.range 2).map (fun r =>
           epochShard permW 4 (4 / (2 * 1) * (2 * 1)) 2 r true e)).flatten).Nodup) ∧
     iterDistInit permW 4 1 1 2 0 true
       = Except.ok ⟨iterDistIndices permW 4 1 1 2 0 true,
           4 / (2 * 1) * (2 * 1) / 2 * 1, 0⟩) :=
  ⟨by decide, by decide, by decide, by decide, by decide,
   iter_dist_shard_reconstruction permW 4 1 1 2 0 (by decide) (by decide)
     (by decide) (by decide) (by decide)⟩

/-- C6: the plan of `IterDistributedSampler` consults the generator only at
the epoch seeds `0..total_epochs-1`, so two constructions with identical
dataset size, epoch count, batch size, replica count, rank and shuffle flag
whose seeded generators agree on those seeds produce identical index
sequences and identical construction results. -/
theorem iter_dist_deterministic
    (g₁ g₂ : Nat → Nat → List Nat) (dsLen te bs R rank : Nat) (shuffle : Bool)
    (hagree : ∀ e < te, g₁ e dsLen = g₂ e dsLen) :
    iterDistIndices g₁ dsLen te bs R rank shuffle
      = iterDistIndices g₂ dsLen te bs R rank shuffle ∧
    iterDistInit g₁ dsLen te bs R rank shuffle
      = iterDistInit g₂ dsLen te bs R rank shuffle := by
  have hidx : iterDistIndices g₁ dsLen te bs R rank shuffle
      = iterDistIndices g₂ dsLen te bs R rank shuffle := by
    rw [iterDistIndices, iterDistIndices]
    congr 1
    refine List.map_congr_left (fun ep hep => ?_)
    rw [epochShard, epochShard, epochIndices, epochIndices,
      hagree ep (List.mem_range.mp hep)]
  refine ⟨hidx, ?_⟩
  rw [iterDistInit, iterDistInit, hidx]

/-- Two generators that agree below one epoch (and differ elsewhere), for
the determinism witness. -/
def permW2 : Nat → Nat → List Nat := fun e n => if e < 1 then List.range n else []

/-- Witness: `iter_dist_deterministic` at `dsLen = 4`, one epoch,
`batch_size = 1`, two replicas, rank 0. -/
theorem iter_dist_deterministic_witness :
    (∀ e < 1, permW e 4 = permW2 e 4) ∧
    (iterDistIndices permW 4 1 1 2 0 true = iterDistIndices permW2 4 1 1 2 0 true ∧
     iterDistInit permW 4 1 1 2 0 true = iterDistInit permW2 4 1 1 2 0 true) :=
  ⟨by decide, iter_dist_deterministic permW permW2 4 1 1 2 0 true (by decide)⟩

/-- C9: `set_epoch` changes only the `epoch` field — the sequence produced
by `__iter__` and the value reported by `__len__` are untouched, the
materialized plan being unaffected. -/
theorem set_epoch_frame (s : IterDistState) (e : Nat) :
    iterDistSeq (set_epoch s e) = iterDistSeq s ∧
    iterDistLen (set_epoch s e) = iterDistLen s ∧
    (set_epoch s e).epoch = e :=
  ⟨rfl, rfl, rfl⟩

/-- Ceiling division times the divisor covers the dividend. -/
theorem ceil_mul_ge (dn R : Nat) (hR : 0 < R) : dn ≤ (dn + R - 1) / R * R := by
  have h1 := Nat.div_add_mod (dn + R - 1) R
  have h2 : (dn + R - 1) % R < R := Nat.mod_lt _ hR
  have h3 : R * ((dn + R - 1) / R) = (dn + R - 1) / R * R := by ring
  omega

/-- Membership in an inference shard under a valid configuration. -/
theorem infShard_mem (dn R rank i : Nat) (hdn : 0 < dn) (hR : 0 < R) :
    i ∈ infShard dn R rank ↔
      (dn + R - 1) / R * rank ≤ i ∧
      i < min ((dn + R - 1) / R * (rank + 1)) dn := by
  have hs : infShard dn R rank
      = List.range' ((dn + R - 1) / R * rank)
          (min ((dn + R - 1) / R * (rank + 1)) dn - (dn + R - 1) / R * rank) := by
    rw [infShard, inferenceInit, if_neg (by omega), if_neg (by omega)]
  rw [hs, List.mem_range'_1]
  omega

/-- C7: for `InferenceSampler` with a non-empty dataset and a positive
worker count, construction succeeds for every rank and assigns it exactly
the half-open range `[shard_size * rank, min(shard_size * (rank + 1),
data_num))` with `shard_size = ceil(data_num / num_replicas)`; distinct
ranks' shards are disjoint, and the shards of ranks `0..num_replicas-1`
together cover exactly `range(0, data_num)` (shards may be unequal, and a
late rank's shard may be empty). -/
theorem inference_shard_partition (dn R : Nat) (hdn : 0 < dn) (hR : 0 < R) :
    (∀ rank, inferenceInit dn R rank = Except.ok
        ⟨dn, (dn + R - 1) / R, (dn + R - 1) / R * rank,
         min ((dn + R - 1) / R * (rank + 1)) dn,
         List.range' ((dn + R - 1) / R * rank)
           (min ((dn + R - 1) / R * (rank + 1)) dn
             - (dn + R - 1) / R * rank)⟩) ∧
    (∀ r1 r2 i, r1 ≠ r2 →
      i ∈ infShard dn R r1 → i ∈ infShard dn R r2 → False) ∧
    (∀ i, i < dn ↔ ∃ r, r < R ∧ i ∈ infShard dn R r) := by
  refine ⟨?_, ?_, ?_⟩
  · intro rank
    rw [inferenceInit, if_neg (by omega), if_neg (by omega)]
  · intro r1 r2 i hne h1 h2
    rw [infShard_mem dn R r1 i hdn hR] at h1
    rw [infShard_mem dn R r2 i hdn hR] at h2
    rcases Nat.lt_trichotomy r1 r2 with hlt | heq | hlt
    · have := Nat.mul_le_mul_left ((dn + R - 1) / R) (show r1 + 1 ≤ r2 by omega)
      omega
    · exact hne heq
    · have := Nat.mul_le_mul_left ((dn + R - 1) / R) (show r2 + 1 ≤ r1 by omega)
      omega
  · intro i
    constructor
    · intro hi
      have hcs : 0 < (dn + R - 1) / R :=
        (Nat.one_le_div_iff hR).mpr (by omega)
      refine ⟨i / ((dn + R - 1) / R), ?_, ?_⟩
      · rw [Nat.div_lt_iff_lt_mul hcs]
        have := ceil_mul_ge dn R hR
        have hc : R * ((dn + R - 1) / R) = (dn + R - 1) / R * R := by ring
        omega
      · rw [infShard_mem dn R _ i hdn hR]
        have h1 := Nat.div_add_mod i ((dn + R - 1) / R)
        have h2 : i % ((dn + R - 1) / R) < (dn + R - 1) / R := Nat.mod_lt _ hcs
        have h3 : (dn + R - 1) / R * (i / ((dn + R - 1) / R) + 1)
            = (dn + R - 1) / R * (i / ((dn + R - 1) / R)) + (dn + R - 1) / R := by
          ring
        omega
    · rintro ⟨r, _, hmem⟩
      rw [infShard_mem dn R r i hdn hR] at hmem
      omega

/-- Witness: `inference_shard_partition` at `data_num = 10`, three workers:
the shard boundaries are `[0, 4)`, `[4, 8)`, `[8, 10)`. -/
theorem inference_shard_partition_witness :
    (0 : Nat) < 10 ∧ (0 : Nat) < 3 ∧
    infShard 10 3 0 = [0, 1, 2, 3] ∧
    infShard 10 3 1 = [4, 5, 6, 7] ∧
    infShard 10 3 2 = [8, 9] ∧
    ((∀ rank, inferenceInit 10 3 rank = Except.ok
        ⟨10, (10 + 3 - 1) / 3, (10 + 3 - 1) / 3 * rank,
         min ((10 + 3 - 1) / 3 * (rank + 1)) 10,
         List.range' ((10 + 3 - 1) / 3 * rank)
           (min ((10 + 3 - 1) / 3 * (rank + 1)) 10
             - (10 + 3 - 1) / 3 * rank)⟩) ∧
     (∀ r1 r2 i, r1 ≠ r2 →
       i ∈ infShard 10 3 r1 → i ∈ infShard 10 3 r2 → False) ∧
     (∀ i, i < 10 ↔ ∃ r, r < 3 ∧ i ∈ infShard 10 3 r)) :=
  ⟨by decide, by decide, by decide, by decide, by decide,
   inference_shard_partition 10 3 (by decide) (by decide)⟩

/-- With no labels at all, a still-running pass can never complete: sampling
a positive number of distinct labels from an empty population is
impossible. -/
theorem groupPassLoop_empty_labels (nd nimg : Nat) (hnd : 0 < nd) :
    ∀ (sels : List (List (Nat × List Nat))) (st : DState), st.stop = false →
      groupPassLoop [] nd nimg sels st = none := by
  intro sels st hstop
  cases sels with
  | nil => simp [groupPassLoop, hstop]
  | cons r rest =>
    simp only [groupPassLoop, hstop, Bool.false_eq_true, if_false]
    rw [if_neg]
    intro hok
    obtain ⟨hlen, _, hsub⟩ := hok
    cases hr : r.map Prod.fst with
    | nil => rw [hr] at hlen; simp at hlen; omega
    | cons a l =>
      exact absurd (hsub a (by rw [hr]; simp)) (by simp)

/-- A successful domain / dataset construction stores exactly the emitted
count of its construction-time pass as the reported length. -/
theorem groupInit_length (labels : List Nat) (poolOf : Nat → List Nat)
    (bs : Nat) (nopt : Option Nat) (sels : List (List (Nat × List Nat)))
    (smp : GroupSampler) (h : groupInit labels poolOf bs nopt sels = Except.ok smp) :
    ∃ st, groupPass labels poolOf (resolveGroupCount labels nopt)
        (bs / resolveGroupCount labels nopt) sels = some st ∧
      smp.length = st.out.length := by
  rw [groupInit] at h
  by_cases h0 : resolveGroupCount labels nopt = 0
  · rw [if_pos h0] at h
    exact absurd h (by simp)
  · rw [if_neg h0] at h
    by_cases hm : bs % resolveGroupCount labels nopt ≠ 0
    · rw [if_pos hm] at h
      exact absurd h (by simp)
    · rw [if_neg hm] at h
      cases hgp : groupPass labels poolOf (resolveGroupCount labels nopt)
          (bs / resolveGroupCount labels nopt) sels with
      | none =>
        rw [hgp] at h
        exact absurd h (by simp)
      | some st =>
        rw [hgp] at h
        simp only [Except.ok.injEq] at h
        exact ⟨st, rfl, by rw [← h]⟩

/-- C8: each listed invalid configuration is rejected eagerly at
construction, before any index is produced: `RandomIdentitySampler` when
`batch_size < num_instances` or when fewer than `batch_size //
num_instances` distinct identities exist; `RandomDomainSampler` /
`RandomDatasetSampler` when `batch_size` is not divisible by the (possibly
defaulted) group count; `InferenceSampler` when `data_num = 0`; and an
empty item collection given to any of the three balanced samplers. -/
theorem eager_construction_errors
    (ds1 : List Item) (bs1 ni1 : Nat) (h1 : bs1 < ni1)
    (ds2 : List Item) (bs2 ni2 : Nat) (h2 : (pidsOf ds2).length < bs2 / ni2)
    (ds3 : List Item) (bs3 : Nat) (nd3 : Option Nat)
    (sels3 : List (List (Nat × List Nat)))
    (h3 : ¬ resolveGroupCount (domainsOf ds3) nd3 ∣ bs3)
    (ds4 : List Item) (bs4 : Nat) (nd4 : Option Nat)
    (sels4 : List (List (Nat × List Nat)))
    (h4 : ¬ resolveGroupCount (datasetsOf ds4) nd4 ∣ bs4)
    (r5 rk5 : Nat) (bs6 ni6 : Nat)
    (bs7 : Nat) (nd7 : Option Nat) (sels7 : List (List (Nat × List Nat)))
    (bs8 : Nat) (nd8 : Option Nat) (sels8 : List (List (Nat × List Nat))) :
    isOkE (identityInit ds1 bs1 ni1) = false ∧
    isOkE (identityInit ds2 bs2 ni2) = false ∧
    isOkE (domainInit ds3 bs3 nd3 sels3) = false ∧
    isOkE (datasetInit ds4 bs4 nd4 sels4) = false ∧
    isOkE (inferenceInit 0 r5 rk5) = false ∧
    isOkE (identityInit [] bs6 ni6) = false ∧
    isOkE (domainInit [] bs7 nd7 sels7) = false ∧
    isOkE (datasetInit [] bs8 nd8 sels8) = false := by
  have hgroup : ∀ (labels : List Nat) (poolOf : Nat → List Nat) (bs : Nat)
      (nopt : Option Nat) (sels : List (List (Nat × List Nat))),
      ¬ resolveGroupCount labels nopt ∣ bs →
      isOkE (groupInit labels poolOf bs nopt sels) = false := by
    intro labels poolOf bs nopt sels hnd
    rw [groupInit]
    by_cases h0 : resolveGroupCount labels nopt = 0
    · rw [if_pos h0]
      rfl
    · rw [if_neg h0]
      rw [if_pos (show bs % resolveGroupCount labels nopt ≠ 0 from
        fun hmod => hnd (Nat.dvd_iff_mod_eq_zero.mpr hmod))]
      rfl
  have hempty : ∀ (poolOf : Nat → List Nat) (bs : Nat)
      (nopt : Option Nat) (sels : List (List (Nat × List Nat))),
      isOkE (groupInit [] poolOf bs nopt sels) = false := by
    intro poolOf bs nopt sels
    rw [groupInit]
    cases nopt with
    | none =>
      rw [if_pos (show resolveGroupCount [] none = 0 from rfl)]
      rfl
    | some d =>
      by_cases hd : d = 0
      · subst hd
        rw [if_pos (show resolveGroupCount [] (some 0) = 0 from rfl)]
        rfl
      · have hn : resolveGroupCount [] (some d) = d := by
          simp [resolveGroupCount, hd]
        rw [hn, if_neg hd]
        by_cases hm : bs % d ≠ 0
        · rw [if_pos hm]
          rfl
        · rw [if_neg hm, groupPass,
            groupPassLoop_empty_labels d (bs / d) (Nat.pos_of_ne_zero hd) sels _ rfl]
          rfl
  refine ⟨?_, ?_, ?_, ?_, ?_, ?_, ?_, ?_⟩
  · rw [identityInit, if_pos h1]
    rfl
  · rw [identityInit]
    by_cases ha : bs2 < ni2
    · rw [if_pos ha]
      rfl
    · rw [if_neg ha]
      by_cases hb : ni2 = 0
      · subst hb
        simp at h2
      · rw [if_neg hb, if_pos h2]
        rfl
  · exact hgroup _ _ _ _ _ h3
  · exact hgroup _ _ _ _ _ h4
  · rw [inferenceInit, if_pos rfl]
    rfl
  · rw [identityInit]
    by_cases ha : bs6 < ni6
    · rw [if_pos ha]
      rfl
    · rw [if_neg ha]
      by_cases hb : ni6 = 0
      · rw [if_pos hb]
        rfl
      · rw [if_neg hb, if_pos]
        · rfl
        · have : 1 ≤ bs6 / ni6 :=
            (Nat.one_le_div_iff (Nat.pos_of_ne_zero hb)).mpr (by omega)
          have hp : pidsOf ([] : List Item) = [] := rfl
          rw [hp]
          simpa using this
  · exact hempty _ _ _ _
  · exact hempty _ _ _ _

/-- Witness: `eager_construction_errors` at concrete invalid
configurations of every kind. -/
theorem eager_construction_errors_witness :
    (1 : Nat) < 2 ∧ (pidsOf dsW1).length < 6 / 2 ∧
    ¬ resolveGroupCount (domainsOf dsW2) (some 2) ∣ 3 ∧
    ¬ resolveGroupCount (datasetsOf dsW2) (some 2) ∣ 3 ∧
    (isOkE (identityInit dsW1 1 2) = false ∧
     isOkE (identityInit dsW1 6 2) = false ∧
     isOkE (domainInit dsW2 3 (some 2) []) = false ∧
     isOkE (datasetInit dsW2 3 (some 2) []) = false ∧
     isOkE (inferenceInit 0 1 0) = false ∧
     isOkE (identityInit [] 2 2) = false ∧
     isOkE (domainInit [] 1 none []) = false ∧
     isOkE (datasetInit [] 1 none []) = false) :=
  ⟨by decide, by decide, by decide, by decide,
   eager_construction_errors dsW1 1 2 (by decide) dsW1 6 2 (by decide)
     dsW2 3 (some 2) [] (by decide) dsW2 3 (some 2) [] (by decide)
     1 0 2 2 1 none [] 1 none []⟩

/-- C10: `sampler.py` never binds the names `torch` or `dist` (its imports
bind only `copy`, `np`, `random`, `defaultdict` and the three classes pulled
out of `torch.utils.data.sampler`).  Consequently, constructing
`IterDistributedSampler` with `num_replicas` and `rank` supplied and any
`shuffle` flag always dies with `NameError` on `torch` whenever it reaches
`torch.Generator()` — which it does as soon as `total_epochs >= 1` and the
division by `num_replicas * batch_size` at lines 223-224 goes through
(before `shuffle` is consulted); when that product is zero the construction
instead dies at the division with `ZeroDivisionError`, still before any
index is produced; and leaving `num_replicas` or `rank` unset in
`IterDistributedSampler` or `InferenceSampler` dies earlier with
`NameError` on `dist`. -/
theorem missing_torch_dist_imports
    (te bs nr rank dn : Nat) (sh : Bool) (hte : 1 ≤ te)
    (hbs : nr * bs ≠ 0) (hdn : dn ≠ 0)
    (bs0 nr0 rank0 : Nat) (h0 : nr0 * bs0 = 0) :
    pyNameTorch ∉ moduleNames ∧ pyNameDist ∉ moduleNames ∧
    iterDistInitNames te bs (some nr) (some rank) sh
      = Except.error (PyError.nameErr pyNameTorch) ∧
    iterDistInitNames te bs0 (some nr0) (some rank0) sh
      = Except.error PyError.zeroDivisionError ∧
    iterDistInitNames te bs none (some rank) sh
      = Except.error (PyError.nameErr pyNameDist) ∧
    iterDistInitNames te bs (some nr) none sh
      = Except.error (PyError.nameErr pyNameDist) ∧
    inferenceInitNames dn none (some rank)
      = Except.error (PyError.nameErr pyNameDist) ∧
    inferenceInitNames dn (some nr) none
      = Except.error (PyError.nameErr pyNameDist) := by
  refine ⟨by decide, by decide, ?_, ?_, rfl, ?_, ?_, ?_⟩
  · show (if te < 1 then (Except.error PyError.assertionError : Except PyError Unit)
        else if nr * bs = 0 then Except.error PyError.zeroDivisionError
        else resolveName pyNameTorch)
      = Except.error (PyError.nameErr pyNameTorch)
    rw [if_neg (by omega : ¬ te < 1), if_neg hbs]
    rfl
  · show (if te < 1 then (Except.error PyError.assertionError : Except PyError Unit)
        else if nr0 * bs0 = 0 then Except.error PyError.zeroDivisionError
        else resolveName pyNameTorch)
      = Except.error PyError.zeroDivisionError
    rw [if_neg (by omega : ¬ te < 1), if_pos h0]
  · rfl
  · show (if dn = 0 then (Except.error PyError.assertionError : Except PyError Unit)
        else Except.error (PyError.nameErr pyNameDist))
      = Except.error (PyError.nameErr pyNameDist)
    rw [if_neg hdn]
  · show (if dn = 0 then (Except.error PyError.assertionError : Except PyError Unit)
        else Except.error (PyError.nameErr pyNameDist))
      = Except.error (PyError.nameErr pyNameDist)
    rw [if_neg hdn]

/-- Witness: `missing_torch_dist_imports` at one epoch with `batch_size = 1`
and two replicas (reaching `torch.Generator()`), a zero-replica
configuration (dying at the division), concrete ranks and a one-item
dataset size, with `shuffle = False`. -/
theorem missing_torch_dist_imports_witness :
    1 ≤ 1 ∧ (2 * 1 : Nat) ≠ 0 ∧ (1 : Nat) ≠ 0 ∧ (0 * 1 : Nat) = 0 ∧
    (pyNameTorch ∉ moduleNames ∧ pyNameDist ∉ moduleNames ∧
     iterDistInitNames 1 1 (some 2) (some 0) false
       = Except.error (PyError.nameErr pyNameTorch) ∧
     iterDistInitNames 1 1 (some 0) (some 0) false
       = Except.error PyError.zeroDivisionError ∧
     iterDistInitNames 1 1 none (some 0) false
       = Except.error (PyError.nameErr pyNameDist) ∧
     iterDistInitNames 1 1 (some 2) none false
       = Except.error (PyError.nameErr pyNameDist) ∧
     inferenceInitNames 1 none (some 0)
       = Except.error (PyError.nameErr pyNameDist) ∧
     inferenceInitNames 1 (some 2) none
       = Except.error (PyError.nameErr pyNameDist)) :=
  ⟨by decide, by decide, by decide, by decide,
   missing_torch_dist_imports 1 1 2 0 1 false (by decide) (by decide)
     (by decide) 1 0 0 (by decide)⟩

/-- The reported identity-epoch length as a multiple of `num_instances`. -/
theorem identityLength_eq (ds : List Item) (k : Nat) :
    identityLength ds k
      = k * ((pidsOf ds).map (fun p => max (index_dic ds p).length k / k)).sum := by
  rw [identityLength, ← List.sum_map_mul_left]
  refine congrArg List.sum (List.map_congr_left (fun p _ => ?_))
  exact sub_mod_eq_mul_div (max (index_dic ds p).length k) k

/-- A completed identity pass emits `num_instances` indices per block, at
most `identityLength` in total. -/
theorem identity_emitted_bound (ds : List Item) (bs k : Nat)
    (arr : Nat → List Nat) (sels : List (List Nat)) (st' : RState)
    (hk : 0 < k) (harr : padHyp ds k arr)
    (hrun : identityPass ds bs k arr sels = some st') :
    (identityFinal st').length = k * st'.out.length ∧
    (identityFinal st').length ≤ identityLength ds k := by
  obtain ⟨hc, htot, hwf⟩ := runLoop_spec (bs / k) sels _ st' hrun
  obtain ⟨hd', ho'⟩ := hwf ds k (initDict_wf harr) (fun e he => by simp at he)
  have hflat : (identityFinal st').length = k * st'.out.length := by
    rw [identityFinal,
      flatten_const_length k (st'.out.map Prod.snd) (fun c hcm => by
        obtain ⟨e, he, hce⟩ := List.mem_map.mp hcm
        exact hce ▸ (ho' e he).1),
      List.length_map]
  refine ⟨hflat, ?_⟩
  dsimp only at htot
  simp only [List.length_nil] at htot
  have hout : st'.out.length ≤ totalChunks (initDict ds k arr) := by omega
  have htc : totalChunks (initDict ds k arr)
      = ((pidsOf ds).map (fun p => max (index_dic ds p).length k / k)).sum := by
    rw [totalChunks_initDict]
    refine congrArg List.sum (List.map_congr_left (fun p hp => ?_))
    rw [mkChunks_length k hk, (padHyp_facts harr hp).1]
  rw [hflat, identityLength_eq ds k]
  calc k * st'.out.length
      ≤ k * totalChunks (initDict ds k arr) := Nat.mul_le_mul_left k hout
    _ = _ := by rw [htc]

/-- An eight-item dataset split evenly over two cameras. -/
def dsC4 : List Item :=
  [⟨0, 0, 0⟩, ⟨0, 0, 0⟩, ⟨0, 0, 0⟩, ⟨0, 0, 0⟩,
   ⟨0, 1, 0⟩, ⟨0, 1, 0⟩, ⟨0, 1, 0⟩, ⟨0, 1, 0⟩]

/-- The state a camera pass over `dsC4` (one camera of two indices per
round) reaches when the draws keep hitting camera 0: two rounds, six unused
indices, 4 indices emitted. -/
def stC4short : DState :=
  ⟨[(0, []), (1, [4, 5, 6, 7])], [0, 1, 2, 3],
   [⟨0, [0, 1, 2, 3], [0, 1], [2, 3]⟩, ⟨0, [2, 3], [2, 3], []⟩], true⟩

/-- The state the same sampler reaches when the draws alternate cameras:
three rounds, 6 indices emitted. -/
def stC4long : DState :=
  ⟨[(0, []), (1, [6, 7])], [0, 1, 4, 5, 2, 3],
   [⟨0, [0, 1, 2, 3], [0, 1], [2, 3]⟩, ⟨1, [4, 5, 6, 7], [4, 5], [6, 7]⟩,
    ⟨0, [2, 3], [2, 3], []⟩], true⟩

/-- Counterexample to C4 as stated: for `RandomDomainSampler` over `dsC4`
with `batch_size = 2`, `n_domain = 1`, the length reported by `__len__`
(measured on the construction-time pass) is not the length of every pass —
one completed pass emits 4 indices, another emits 6, so no single reported
number equals the count of an arbitrary pass. -/
theorem reported_length_not_pass_invariant :
    ¬ (∀ (sels sels' : List (List (Nat × List Nat))) (smp : GroupSampler)
        (st : DState),
        domainInit dsC4 2 (some 1) sels = Except.ok smp →
        groupPass (domainsOf dsC4) (domain_dict dsC4) 1 2 sels' = some st →
        smp.length = st.out.length) := by
  intro h
  have h46 := h [[(0, [0, 1])], [(0, [2, 3])]]
    [[(0, [0, 1])], [(1, [4, 5])], [(0, [2, 3])]]
    ⟨2, 1, 2, 4⟩ stC4long (by decide) (by decide)
  exact absurd h46 (by decide)

/-- C4 (amended): the length reported by `__len__` is exact for
`IterDistributedSampler` (the materialized plan has exactly `num_samples`
indices) and `InferenceSampler` (`__len__` counts exactly the emitted
range); for `RandomDomainSampler` / `RandomDatasetSampler` it equals the
emitted count of the construction-time pass (other passes of the same
sampler may emit different totals); and for `RandomIdentitySampler` the
reported `sum over identities of (max(count, num_instances) -
max(count, num_instances) % num_instances)` is an upper bound on the
emitted count, both being multiples of `num_instances`. -/
theorem length_report_semantics
    (ds : List Item) (bs k : Nat) (arr : Nat → List Nat)
    (sels : List (List Nat)) (st' : RState)
    (hk : 0 < k) (harr : padHyp ds k arr)
    (hrun : identityPass ds bs k arr sels = some st')
    (dsD : List Item) (bsD : Nat) (ndD : Option Nat)
    (selsD : List (List (Nat × List Nat))) (smpD : GroupSampler)
    (hD : domainInit dsD bsD ndD selsD = Except.ok smpD)
    (dsE : List Item) (bsE : Nat) (ndE : Option Nat)
    (selsE : List (List (Nat × List Nat))) (smpE : GroupSampler)
    (hE : datasetInit dsE bsE ndE selsE = Except.ok smpE)
    (permOf : Nat → Nat → List Nat) (dsLen te bsI R rank : Nat)
    (hbsI : 0 < bsI) (hR : 0 < R) (hrank : rank < R) (hte : 1 ≤ te)
    (hperm : ∀ e < te, (permOf e dsLen).length = dsLen)
    (dn RI rI : Nat) (sI : InfState)
    (hI : inferenceInit dn RI rI = Except.ok sI) :
    (k ∣ identityLength ds k ∧ k ∣ (identityFinal st').length ∧
     (identityFinal st').length ≤ identityLength ds k) ∧
    (∃ stD, groupPass (domainsOf dsD) (domain_dict dsD)
        (resolveGroupCount (domainsOf dsD) ndD)
        (bsD / resolveGroupCount (domainsOf dsD) ndD) selsD = some stD ∧
      smpD.length = stD.out.length) ∧
    (∃ stE, groupPass (datasetsOf dsE) (dataset_dict dsE)
        (resolveGroupCount (datasetsOf dsE) ndE)
        (bsE / resolveGroupCount (datasetsOf dsE) ndE) selsE = some stE ∧
      smpE.length = stE.out.length) ∧
    (∃ sDist, iterDistInit permOf dsLen te bsI R rank true = Except.ok sDist ∧
      (iterDistSeq sDist).length = iterDistLen sDist) ∧
    (inferenceIter sI).length = inferenceLen sI := by
  obtain ⟨hflat, hle⟩ := identity_emitted_bound ds bs k arr sels st' hk harr hrun
  refine ⟨⟨⟨_, identityLength_eq ds k⟩, ⟨st'.out.length, hflat⟩, hle⟩, ?_, ?_, ?_, rfl⟩
  · rw [domainInit] at hD
    exact groupInit_length _ _ _ _ _ _ hD
  · rw [datasetInit] at hE
    exact groupInit_length _ _ _ _ _ _ hE
  · have hlen := iterDistIndices_length permOf dsLen te bsI R rank true hbsI hR
      hrank hperm
    refine ⟨⟨iterDistIndices permOf dsLen te bsI R rank true,
      dsLen / (R * bsI) * (R * bsI) / R * te, 0⟩, ?_, hlen⟩
    rw [iterDistInit, if_neg (by omega : ¬ te < 1),
      if_neg (Nat.mul_ne_zero (by omega) (by omega) : ¬ R * bsI = 0),
      if_pos hlen]

/-- The constructed inference sampler for a ten-item dataset on the first of
three workers. -/
def sIW : InfState := ⟨10, 4, 0, 4, [0, 1, 2, 3]⟩

/-- Witness: `length_report_semantics` at concrete successful constructions
of all five samplers. -/
theorem length_report_semantics_witness :
    0 < 2 ∧ padHyp dsW1 2 arrW1 ∧
    identityPass dsW1 4 2 arrW1 [[0, 1]] = some stW1 ∧
    domainInit dsW2 2 (some 2)
      [[(0, [0]), (1, [2])], [(0, [1]), (1, [3])]] = Except.ok ⟨2, 2, 1, 4⟩ ∧
    datasetInit dsW2 2 (some 2)
      [[(0, [0]), (1, [1])], [(0, [2]), (1, [3])]] = Except.ok ⟨2, 2, 1, 4⟩ ∧
    (0 : Nat) < 1 ∧ (0 : Nat) < 2 ∧ (0 : Nat) < 2 ∧ 1 ≤ 1 ∧
    (∀ e < 1, (permW e 4).length = 4) ∧
    inferenceInit 10 3 0 = Except.ok sIW ∧
    ((2 ∣ identityLength dsW1 2 ∧ 2 ∣ (identityFinal stW1).length ∧
      (identityFinal stW1).length ≤ identityLength dsW1 2) ∧
     (∃ stD, groupPass (domainsOf dsW2) (domain_dict dsW2)
         (resolveGroupCount (domainsOf dsW2) (some 2))
         (2 / resolveGroupCount (domainsOf dsW2) (some 2))
         [[(0, [0]), (1, [2])], [(0, [1]), (1, [3])]] = some stD ∧
       (⟨2, 2, 1, 4⟩ : GroupSampler).length = stD.out.length) ∧
     (∃ stE, groupPass (datasetsOf dsW2) (dataset_dict dsW2)
         (resolveGroupCount (datasetsOf dsW2) (some 2))
         (2 / resolveGroupCount (datasetsOf dsW2) (some 2))
         [[(0, [0]), (1, [1])], [(0, [2]), (1, [3])]] = some stE ∧
       (⟨2, 2, 1, 4⟩ : GroupSampler).length = stE.out.length) ∧
     (∃ sDist, iterDistInit permW 4 1 1 2 0 true = Except.ok sDist ∧
       (iterDistSeq sDist).length = iterDistLen sDist) ∧
     (inferenceIter sIW).length = inferenceLen sIW) :=
  ⟨by decide, by decide, by decide, by decide, by decide, by decide, by decide,
   by decide, by decide, by decide, by decide,
   length_report_semantics dsW1 4 2 arrW1 [[0, 1]] stW1 (by decide) (by decide)
     (by decide) dsW2 2 (some 2) [[(0, [0]), (1, [2])], [(0, [1]), (1, [3])]]
     ⟨2, 2, 1, 4⟩ (by decide) dsW2 2 (some 2)
     [[(0, [0]), (1, [1])], [(0, [2]), (1, [3])]] ⟨2, 2, 1, 4⟩ (by decide)
     permW 4 1 1 2 0 (by decide) (by decide) (by decide) (by decide)
     (by decide) 10 3 0 sIW (by decide)⟩
